import Mathlib

/-!
goDesktop: the content-sharing server (`server/server.go`).

A shallow embedding of the five gin handlers of `server/server.go`
(`TextsController`, `FilesController`, `UploadsController`,
`AddressesController`, `QrcodesController`) together with the parts of the Go
standard library they call (`path.Clean`, `path.Join`, `filepath.Dir`,
`filepath.Ext`, `os.MkdirAll`, `ioutil.WriteFile`, `http.ServeFile`,
`net.IP.To4`, `net.IP.IsLoopback`, `net.IP.String`, `uuid.UUID.String`).

Conventions.

* A Go `string` is a byte sequence; it is modelled as `List Char`, one element
  per byte.  Every library function below inspects only the ASCII bytes `/`,
  `.` and `\`.
* `path/filepath` is modelled for a platform whose separator is `/`
  (there `filepath.Clean` and `filepath.Join` are `path.Clean` and
  `path.Join`, and a volume name is always empty).
* The filesystem is an explicit state, passed in and returned; the calls a
  handler makes to its environment are recorded in order.
* `log.Fatal` ends the process (`os.Exit(1)`); it is the `Outcome.exit`
  constructor.
-/

set_option autoImplicit false

namespace GoDesktop

/-- A Go string, one `Char` per byte. -/
abbrev Str := List Char

/-! ## `path` and `path/filepath` -/

/-- The pieces of a string between its separator bytes (`strings.Split` for a
one-byte separator, generalised to a set of separator bytes). -/
def splitBy (sep : Char → Bool) : Str → List Str
  | [] => [[]]
  | c :: cs =>
    if sep c then [] :: splitBy sep cs
    else match splitBy sep cs with
      | [] => [[c]]
      | h :: t => (c :: h) :: t

/-- The separator of `path` (and of `path/filepath` on this platform). -/
def isSlash (c : Char) : Bool := c == '/'

/-- The elements of a path between its `/` bytes. -/
def splitSlash (p : Str) : List Str := splitBy isSlash p

/-- The two-byte element `..`. -/
def dotdot : Str := ['.', '.']

/-- One round of the loop of `path.Clean`, on the elements written so far
(`st`, last written element first).  The cases are those of the `switch`:
an empty element (a `/`) and `.` are skipped; `..` backtracks over the last
element when there is one that is not itself `..`, is dropped at the root of
a rooted path, and is written otherwise; any other element is written. -/
def cleanStep (rooted : Bool) (st : List Str) (e : Str) : List Str :=
  if e = [] then st
  else if e = ['.'] then st
  else if e = dotdot then
    match st with
    | [] => if rooted then [] else [dotdot]
    | top :: rest => if top = dotdot then dotdot :: top :: rest else rest
  else e :: st

/-- The elements written by `path.Clean` joined by single slashes
(`st` has the last element first). -/
def renderRev : List Str → Str
  | [] => []
  | [e] => e
  | e :: rest => renderRev rest ++ '/' :: e

/-- Whether a path begins with `/` (`rooted := path[0] == '/'`). -/
def isRooted : Str → Bool
  | [] => false
  | c :: _ => c == '/'

/-- The elements `path.Clean` keeps, last one first. -/
def cleanStack (p : Str) : List Str :=
  (splitSlash p).foldl (cleanStep (isRooted p)) []

/-- The result of `path.Clean` from the rootedness and the kept elements:
a rooted path is `/` followed by the elements, an unrooted one with no
element is `.` (`if out.w == 0 { return "." }`). -/
def renderClean (rooted : Bool) (st : List Str) : Str :=
  if rooted then '/' :: renderRev st
  else if st = [] then ['.'] else renderRev st

/-- Go `path.Clean` (and `filepath.Clean` where the separator is `/`). -/
def Clean (p : Str) : Str :=
  if p = [] then ['.'] else renderClean (isRooted p) (cleanStack p)

/-- The body of `path.Join` and `filepath.Join`: the non-empty elements
separated by `/`, before cleaning. -/
def joinRaw : List Str → Str
  | [] => []
  | e :: es =>
    if e = [] then joinRaw es
    else if joinRaw es = [] then e else e ++ '/' :: joinRaw es

/-- Go `path.Join` / `filepath.Join`: empty elements are ignored, the rest is
joined with `/` and cleaned; the result is empty when every element is. -/
def Join (elem : List Str) : Str :=
  if joinRaw elem = [] then [] else Clean (joinRaw elem)

/-- The part of a reversed path from its first `/` on. -/
def dropToSlash : Str → Str
  | [] => []
  | c :: cs => if c = '/' then c :: cs else dropToSlash cs

/-- Go `filepath.Dir`: everything up to and including the last separator,
cleaned. -/
def Dir (p : Str) : Str :=
  Clean (dropToSlash p.reverse).reverse

/-- The loop of `filepath.Ext`, on the reversed path: walk back from the end
until a separator (no extension) or a dot (the extension starts there). -/
def extRev : Str → Str → Str
  | [], _ => []
  | c :: cs, acc =>
    if c = '/' then []
    else if c = '.' then '.' :: acc
    else extRev cs (c :: acc)

/-- Go `filepath.Ext`: the suffix beginning at the final dot of the final
element of the path, empty if there is no dot. -/
def Ext (p : Str) : Str := extRev p.reverse []


/-! ## `github.com/google/uuid` -/

/-- One byte. -/
abbrev Byte := Fin 256

/-- The lower-case digit table of `encoding/hex`. -/
def hexDigit (n : Nat) : Char := "0123456789abcdef".toList.getD n '0'

/-- Go `hex.Encode`: two digits per byte, high nibble first. -/
def hexEncode : List Byte → Str
  | [] => []
  | b :: bs => hexDigit (b.val / 16) :: hexDigit (b.val % 16) :: hexEncode bs

/-- A `uuid.UUID`, an array of 16 bytes. -/
structure UUID where
  bytes : List Byte
  size : bytes.length = 16

/-- Go `UUID.String` (`encodeHex`): the bytes in hexadecimal in groups of
4, 2, 2, 2 and 6 bytes separated by `-`. -/
def UUID.String (u : UUID) : Str :=
  hexEncode (u.bytes.take 4) ++ '-' ::
  hexEncode ((u.bytes.drop 4).take 2) ++ '-' ::
  hexEncode ((u.bytes.drop 6).take 2) ++ '-' ::
  hexEncode ((u.bytes.drop 8).take 2) ++ '-' ::
  hexEncode (u.bytes.drop 10)

/-! ## The filesystem -/

/-- What a path names: a regular file with its bytes, or a directory. -/
inductive Node
  | file (bytes : Str)
  | dir
  deriving DecidableEq

/-- A filesystem state: what each (cleaned) path names, if anything. -/
abbrev FS := Str → Option Node

/-- The state with path `p` naming `n` and every other path as before. -/
def FS.set (fs : FS) (p : Str) (n : Node) : FS :=
  fun q => if q = p then some n else fs q

/-- The path and its ancestors that have at least one element, deepest first:
the arguments of the recursive calls of `os.MkdirAll`. -/
def ancestorsUp (rooted : Bool) : List Str → List Str
  | [] => []
  | e :: st => renderClean rooted (e :: st) :: ancestorsUp rooted st

/-- The recursion of `os.MkdirAll` along a path and its ancestors: a path
that is a directory ends it with success, one that is a file with an error;
one that names nothing is made (`Mkdir`) after its parent has been. -/
def mkdirUp (fs : FS) : List Str → Option FS
  | [] => some fs
  | q :: up =>
    match fs q with
    | some Node.dir => some fs
    | some (Node.file _) => none
    | none => (mkdirUp fs up).map (fun fs1 => fs1.set q Node.dir)

/-- Go `os.MkdirAll`; `fault` is a refusal by the operating system
(permission denied, read-only or full disk).  `none` is a non-nil error. -/
def MkdirAll (fault : Bool) (fs : FS) (p : Str) : Option FS :=
  if fault then none
  else mkdirUp fs (ancestorsUp (isRooted p) (cleanStack p))

/-- Go `ioutil.WriteFile` (`os.OpenFile` with `O_WRONLY|O_CREATE|O_TRUNC`, then
`Write`): the name must not be a directory and its parent must be one; the
file then holds exactly `data`.  `fault` is a refusal by the operating
system.  `none` is a non-nil error. -/
def WriteFile (fault : Bool) (fs : FS) (name data : Str) : Option FS :=
  if fault then none
  else match fs name with
    | some Node.dir => none
    | _ =>
      match fs (Dir name) with
      | some Node.dir => some (fs.set name (Node.file data))
      | _ => none

/-! ## The environment, requests and responses -/

/-- Go `qrcode.RecoveryLevel`. -/
inductive RecoveryLevel
  | Low | Medium | High | Highest
  deriving DecidableEq

/-- A `net.IP`, a byte slice. -/
abbrev IP := List Byte

/-- A `net.Addr` as `net.InterfaceAddrs` returns it. -/
inductive Addr
  | ipNet (ip : IP) (mask : List Byte)
  | ipAddr (ip : IP) (zone : Str)
  deriving DecidableEq

/-- A `multipart.FileHeader` with the content of the part. -/
structure FileHeader where
  Filename : Str
  content : Str
  deriving DecidableEq

/-- The error of a failed `os.Open`, by the classes `net/http` tells apart:
`fs.ErrNotExist`, `fs.ErrPermission` (a directory on the way that may not be
searched), and every other error (a name too long, an I/O error). -/
inductive OpenError
  | notExist
  | permission
  | other
  deriving DecidableEq

/-- The outcomes of the calls a handler makes to the host during one request. -/
structure Env where
  /-- The result of `os.Executable()`. -/
  executable : Except Str Str
  /-- The value of `uuid.New()`. -/
  newUUID : UUID
  /-- The operating system refuses to create a directory. -/
  mkdirFault : Bool
  /-- The operating system refuses to write a file. -/
  writeFault : Bool
  /-- The result of `net.InterfaceAddrs()`. -/
  interfaceAddrs : Except Str (List Addr)
  /-- The result of `qrcode.Encode(content, level, size)`. -/
  qrEncode : Str → RecoveryLevel → Int → Except Str Str
  /-- The text `net.IP.String` gives an address that has no 4-byte form. -/
  ipv6Text : IP → Str
  /-- The error `os.Open` returns for a path at which the filesystem state has
  nothing to open. -/
  openError : Str → OpenError

/-- The part of a `gin.Context` the handlers read. -/
structure Context where
  /-- The `c.Request.URL.Path`. -/
  urlPath : Str
  /-- The `c.Params`, filled in by the router. -/
  params : List (Str × Str)
  /-- The query parameters. -/
  query : List (Str × Str)
  /-- The result of `c.ShouldBindJSON(&json)`: the field `Raw`, or the error. -/
  bindJSON : Except Str Str
  /-- The files of the multipart form, or the error of parsing it. -/
  form : Except Str (List (Str × FileHeader))

/-- Gin `c.Param(key)`: the value of the URL parameter, or `""`. -/
def Context.Param (c : Context) (key : Str) : Str :=
  match c.params.lookup key with
  | some v => v
  | none => []

/-- Gin `c.Query(key)`: the value of the query parameter, or `""`. -/
def Context.Query (c : Context) (key : Str) : Str :=
  match c.query.lookup key with
  | some v => v
  | none => []

/-- Gin `c.FormFile(name)`: the first file for the form key, or an error. -/
def Context.FormFile (c : Context) (name : Str) : Except Str FileHeader :=
  match c.form with
  | Except.error e => Except.error e
  | Except.ok files =>
    match files.lookup name with
    | some f => Except.ok f
    | none => Except.error "http: no such file".toList

/-- A value under a key of a `gin.H`. -/
inductive JSONValue
  | str (s : Str)
  | strs (l : List Str)
  deriving DecidableEq

/-- The body of a response. -/
inductive Body
  | empty
  | json (key : Str) (value : JSONValue)
  | data (contentType : Str) (bytes : Str)
  | file (bytes : Str)
  | text (msg : Str)
  | dirList
  deriving DecidableEq

/-- An HTTP response: status, the header fields the handler set, and body. -/
structure Response where
  status : Nat
  header : List (Str × Str)
  body : Body
  deriving DecidableEq

/-- How a handler ends: it returns having written a response, or `log.Fatal`
ends the process with the given exit status. -/
inductive Outcome
  | response (r : Response)
  | exit (status : Nat)
  deriving DecidableEq

/-- A call of a handler to its environment. -/
inductive Call
  | executable
  | uuidNew
  | mkdirAll (path : Str) (perm : Nat)
  | writeFile (name data : Str) (perm : Nat)
  | saveUploadedFile (dst data : Str)
  | openFile (name : Str)
  | interfaceAddrs
  | qrEncode (content : Str) (level : RecoveryLevel) (size : Int)
  deriving DecidableEq

/-- What running a handler gives: how it ended, the filesystem afterwards and
the calls it made, in order. -/
structure Result where
  outcome : Outcome
  fs : FS
  calls : List Call


/-! ## `net/http`: `ServeFile` -/

/-- Go `isSlashRune` of `net/http`: `/` or `\`. -/
def isSlashRune (c : Char) : Bool := c == '/' || c == '\\'

/-- Go `containsDotDot` of `net/http`: some field of the string between
slashes or backslashes is `..`. -/
def containsDotDot (v : Str) : Bool :=
  (splitBy isSlashRune v).any (fun ent => ent == dotdot)

/-- Go `strings.HasSuffix`. -/
def hasSuffix (s suffix : Str) : Bool := suffix.reverse.isPrefixOf s.reverse

/-- Go `Header.Set`: the value of the field is replaced, or the field added. -/
def setHeader : List (Str × Str) → Str → Str → List (Str × Str)
  | [], k, v => [(k, v)]
  | (k1, v1) :: h, k, v => if k1 = k then (k, v) :: h else (k1, v1) :: setHeader h k v

/-- Go `http.Error(w, error, code)`: the content type becomes plain text, the
field `X-Content-Type-Options` is set, and the body is the text followed by a
newline (`fmt.Fprintln`). -/
def httpError (header : List (Str × Str)) (error : Str) (code : Nat) : Response :=
  ⟨code,
    setHeader (setHeader header "Content-Type".toList "text/plain; charset=utf-8".toList)
      "X-Content-Type-Options".toList "nosniff".toList,
    Body.text (error ++ ['\n'])⟩

/-- Go `toHTTPError` of `net/http`: the text and status for a failed open. -/
def toHTTPError : OpenError → Str × Nat
  | OpenError.notExist => ("404 page not found".toList, 404)
  | OpenError.permission => ("403 Forbidden".toList, 403)
  | OpenError.other => ("500 Internal Server Error".toList, 500)

/-- Go `os.Open`: what the path names, or the error the host reports when the
filesystem state has nothing to open there. -/
def osOpen (env : Env) (fs : FS) (name : Str) : Except OpenError Node :=
  match fs name with
  | some n => Except.ok n
  | none => Except.error (env.openError name)

/-- Go `http.ServeFile(w, r, name)` for a `GET` without conditional or range
header fields, which is what gin's `c.File(name)` calls, for a cleaned `name`
(`ServeFile` splits the name into directory and file and `http.Dir.Open` joins
the two again).  The two special cases are the ones the documentation of
`ServeFile` states.

* As a precaution, a request whose `r.URL.Path` contains a `..` path element
  is rejected, with 400 and the text `invalid URL path`, before the file is
  opened.
* A request whose `r.URL.Path` ends in `/index.html` is redirected (301) to
  the same path without the final `index.html`.
* Otherwise the file is opened.  A failed open is answered by `http.Error`
  with what `toHTTPError` makes of the error: 404 when nothing is there, 403
  for a permission error, 500 for any other error.  A directory is redirected
  (301) unless the URL path ends in `/`, and then its `index.html` is served if
  it can be opened, a listing if not.  A regular file is served (200) with its
  bytes.

`header` holds the fields the handler has set already; of the fields
`ServeFile` writes itself only those of `http.Error` are represented (not
`Location`, `Content-Length`, `Last-Modified`, `Accept-Ranges`). -/
def ServeFile (env : Env) (fs : FS) (header : List (Str × Str)) (urlPath name : Str) :
    Response × List Call :=
  if containsDotDot urlPath then
    (httpError header "invalid URL path".toList 400, [])
  else if hasSuffix urlPath "/index.html".toList then
    (⟨301, header, Body.empty⟩, [])
  else match osOpen env fs name with
    | Except.error err =>
      (httpError header (toHTTPError err).1 (toHTTPError err).2, [Call.openFile name])
    | Except.ok (Node.file bytes) => (⟨200, header, Body.file bytes⟩, [Call.openFile name])
    | Except.ok Node.dir =>
      if urlPath.getLast? ≠ some '/' then
        (⟨301, header, Body.empty⟩, [Call.openFile name])
      else
        let index := Join [name, "index.html".toList]
        match osOpen env fs index with
        | Except.ok (Node.file bytes) =>
          (⟨200, header, Body.file bytes⟩, [Call.openFile name, Call.openFile index])
        | _ => (⟨200, header, Body.dirList⟩, [Call.openFile name, Call.openFile index])

/-! ## `net`: addresses -/

/-- Go `IP.To4`: the 4-byte form of an IPv4 address held in 4 bytes or in 16
bytes with the prefix `0:0:0:0:0:ffff`; `none` is the nil slice. -/
def To4 (ip : IP) : Option IP :=
  if ip.length = 4 then some ip
  else if ip.length = 16 ∧ (ip.take 10).all (fun b => b == 0)
      ∧ ip.getD 10 0 = 255 ∧ ip.getD 11 0 = 255 then
    some (ip.drop 12)
  else none

/-- Go `net.IPv6loopback`, the address `::1`. -/
def IPv6loopback : IP := List.replicate 15 0 ++ [1]

/-- The prefix `v4InV6Prefix` of an IPv4 address held in 16 bytes. -/
def v4InV6Prefix : IP := List.replicate 10 0 ++ [255, 255]

/-- Go `IP.Equal`: the same bytes, an IPv4 address being equal to its 16-byte
form. -/
def IPEqual (ip x : IP) : Bool :=
  if ip.length = x.length then ip == x
  else if ip.length = 4 ∧ x.length = 16 then
    x.take 12 == v4InV6Prefix && ip == x.drop 12
  else if ip.length = 16 ∧ x.length = 4 then
    ip.take 12 == v4InV6Prefix && ip.drop 12 == x
  else false

/-- Go `IP.IsLoopback`: an IPv4 address whose first byte is 127, or `::1`. -/
def IsLoopback (ip : IP) : Bool :=
  match To4 ip with
  | some ip4 => ip4.getD 0 0 == 127
  | none => IPEqual ip IPv6loopback

/-- Go `ubtoa` of `net`: a byte in decimal, without leading zeros. -/
def ubtoa (v : Byte) : Str :=
  if v.val < 10 then [Char.ofNat (v.val + 48)]
  else if v.val < 100 then [Char.ofNat (v.val / 10 + 48), Char.ofNat (v.val % 10 + 48)]
  else [Char.ofNat (v.val / 100 + 48), Char.ofNat (v.val / 10 % 10 + 48),
        Char.ofNat (v.val % 10 + 48)]

/-- The dotted decimal form of the four bytes of an IPv4 address. -/
def dottedQuad (p4 : IP) : Str :=
  ubtoa (p4.getD 0 0) ++ '.' :: ubtoa (p4.getD 1 0) ++ '.' ::
  ubtoa (p4.getD 2 0) ++ '.' :: ubtoa (p4.getD 3 0)

/-- Go `IP.String`: dotted decimal when the address has a 4-byte form;
`env.ipv6Text` stands for the text of every other address. -/
def IPString (env : Env) (ip : IP) : Str :=
  match To4 ip with
  | some p4 => if p4.length = 4 then dottedQuad p4 else env.ipv6Text ip
  | none => env.ipv6Text ip

/-! ## The handlers of `server.go` -/

/-- The `log.Fatal(err)` of the handlers: the process exits with status 1. -/
def logFatal (fs : FS) (calls : List Call) : Result :=
  ⟨Outcome.exit 1, fs, calls⟩

/-- The literal `"uploads"`. -/
def uploadsName : Str := "uploads".toList

/-- Go `os.ModePerm`, `0777`. -/
def ModePerm : Nat := 0o777

/-- Go `TextsController`. -/
def TextsController (env : Env) (fs : FS) (c : Context) : Result :=
  match c.bindJSON with
  | Except.error err =>
    ⟨Outcome.response ⟨400, [], Body.json "error".toList (JSONValue.str err)⟩, fs, []⟩
  | Except.ok raw =>
    match env.executable with
    | Except.error _ => logFatal fs [Call.executable]
    | Except.ok exe =>
      let dir := Dir exe
      let filename := env.newUUID.String
      let uploads := Join [dir, uploadsName]
      match MkdirAll env.mkdirFault fs uploads with
      | none => logFatal fs [Call.executable, Call.uuidNew, Call.mkdirAll uploads ModePerm]
      | some fs1 =>
        let fullpath := Join [uploadsName, filename ++ ".txt".toList]
        match WriteFile env.writeFault fs1 (Join [dir, fullpath]) raw with
        | none =>
          logFatal fs1 [Call.executable, Call.uuidNew, Call.mkdirAll uploads ModePerm,
            Call.writeFile (Join [dir, fullpath]) raw 0o644]
        | some fs2 =>
          ⟨Outcome.response ⟨200, [], Body.json "url".toList (JSONValue.str ('/' :: fullpath))⟩,
            fs2,
            [Call.executable, Call.uuidNew, Call.mkdirAll uploads ModePerm,
              Call.writeFile (Join [dir, fullpath]) raw 0o644]⟩

/-- Go `AddressesController`.  The error of `net.InterfaceAddrs` is dropped
(`addrs, _ :=`), the slice is then nil. -/
def AddressesController (env : Env) (fs : FS) (_c : Context) : Result :=
  let addrs := match env.interfaceAddrs with
    | Except.ok l => l
    | Except.error _ => []
  let result := addrs.foldl (fun (result : List Str) address =>
    match address with
    | Addr.ipNet ip _ =>
      if !IsLoopback ip then
        if (To4 ip).isSome then result ++ [IPString env ip] else result
      else result
    | _ => result) []
  ⟨Outcome.response ⟨200, [], Body.json "addresses".toList (JSONValue.strs result)⟩,
    fs, [Call.interfaceAddrs]⟩

/-- Go `GetUploadsDir`: the directory `uploads` next to the executable, or
`log.Fatal` (`none`) when `os.Executable` fails. -/
def GetUploadsDir (env : Env) : Option Str :=
  match env.executable with
  | Except.error _ => none
  | Except.ok exe => some (Join [Dir exe, uploadsName])

/-- The header fields `UploadsController` sets before `c.File`. -/
def downloadHeader (path : Str) : List (Str × Str) :=
  [("Content-Description".toList, "File Transfer".toList),
   ("Content-Transfer-Encoding".toList, "binary".toList),
   ("Content-Disposition".toList, "attachment; filename=".toList ++ path),
   ("Content-Type".toList, "application/octet-stream".toList)]

/-- Go `UploadsController`. -/
def UploadsController (env : Env) (fs : FS) (c : Context) : Result :=
  let path := c.Param "path".toList
  if path ≠ [] then
    match GetUploadsDir env with
    | none => logFatal fs [Call.executable]
    | some uploads =>
      let target := Join [uploads, path]
      let served := ServeFile env fs (downloadHeader path) c.urlPath target
      ⟨Outcome.response served.1, fs, Call.executable :: served.2⟩
  else
    ⟨Outcome.response ⟨404, [], Body.empty⟩, fs, []⟩

/-- Go `QrcodesController`. -/
def QrcodesController (env : Env) (fs : FS) (c : Context) : Result :=
  let content := c.Query "content".toList
  if content ≠ [] then
    match env.qrEncode content RecoveryLevel.Medium 256 with
    | Except.error _ => logFatal fs [Call.qrEncode content RecoveryLevel.Medium 256]
    | Except.ok png =>
      ⟨Outcome.response ⟨200, [], Body.data "image/png".toList png⟩, fs,
        [Call.qrEncode content RecoveryLevel.Medium 256]⟩
  else
    ⟨Outcome.response ⟨400, [], Body.empty⟩, fs, []⟩

/-- Gin `c.SaveUploadedFile(file, dst)`: the destination is created
(`os.Create`) and the content of the part copied into it. -/
def SaveUploadedFile (fault : Bool) (fs : FS) (file : FileHeader) (dst : Str) : Option FS :=
  WriteFile fault fs dst file.content

/-- Go `FilesController`. -/
def FilesController (env : Env) (fs : FS) (c : Context) : Result :=
  match c.FormFile "raw".toList with
  | Except.error _ => logFatal fs []
  | Except.ok file =>
    match env.executable with
    | Except.error _ => logFatal fs [Call.executable]
    | Except.ok exe =>
      let dir := Dir exe
      let filename := env.newUUID.String
      let uploads := Join [dir, uploadsName]
      match MkdirAll env.mkdirFault fs uploads with
      | none => logFatal fs [Call.executable, Call.uuidNew, Call.mkdirAll uploads ModePerm]
      | some fs1 =>
        let fullpath := Join [uploadsName, filename ++ Ext file.Filename]
        match SaveUploadedFile env.writeFault fs1 file (Join [dir, fullpath]) with
        | none =>
          logFatal fs1 [Call.executable, Call.uuidNew, Call.mkdirAll uploads ModePerm,
            Call.saveUploadedFile (Join [dir, fullpath]) file.content]
        | some fs2 =>
          ⟨Outcome.response ⟨200, [], Body.json "url".toList (JSONValue.str ('/' :: fullpath))⟩,
            fs2,
            [Call.executable, Call.uuidNew, Call.mkdirAll uploads ModePerm,
              Call.saveUploadedFile (Join [dir, fullpath]) file.content]⟩

/-! ## The router (`Run`) -/

/-- The rest of `s` after the leading `lead`, if `s` begins with it. -/
def afterLead : Str → Str → Option Str
  | [], s => some s
  | _ :: _, [] => none
  | a :: l, b :: s => if a = b then afterLead l s else none

/-- The handler a `GET` is dispatched to. -/
inductive Route
  | addresses
  | uploads (params : List (Str × Str))
  | qrcodes
  | other
  deriving DecidableEq

/-- The `GET` routes registered in `Run`.  `/uploads/:path` matches one
non-empty path element after `/uploads/` and binds it to `path`; every other
path is left to the static files, the redirects and `NoRoute` (`other`). -/
def routeGET (urlPath : Str) : Route :=
  if urlPath = "/api/v1/addresses".toList then Route.addresses
  else if urlPath = "/api/v1/qrcodes".toList then Route.qrcodes
  else match afterLead "/uploads/".toList urlPath with
    | some rest =>
      if rest ≠ [] ∧ '/' ∉ rest then Route.uploads [("path".toList, rest)]
      else Route.other
    | none => Route.other

/-- The context of a `GET` of `urlPath` with the given parameters and no
query, body or form. -/
def getContext (urlPath : Str) (params : List (Str × Str)) : Context :=
  ⟨urlPath, params, [], Except.error "EOF".toList,
    Except.error "request Content-Type isn't multipart/form-data".toList⟩

/-! ## Auxiliary notions and example inputs -/

/-- A plain path element: not empty, without a slash, neither `.` nor `..`. -/
def Plain (e : Str) : Prop := e ≠ [] ∧ '/' ∉ e ∧ e ≠ ['.'] ∧ e ≠ dotdot

/-- The shape of the elements `path.Clean` keeps: each is non-empty, has no
slash and is not `.`; a `..` occurs only in an unrooted path, above nothing
but other `..`. -/
def Canon (r : Bool) : List Str → Prop
  | [] => True
  | e :: st => e ≠ [] ∧ '/' ∉ e ∧ e ≠ ['.'] ∧
      (e = dotdot → r = false ∧ ∀ t ∈ st.head?, t = dotdot) ∧ Canon r st

/-- The bytes of an identifier: hexadecimal digits and `-`. -/
def idChars : Str := "0123456789abcdef-".toList

/-- The identifier of the comment in `TextsController`,
`79a89ddf-5025-4c75-9716-6405e01b37c2`. -/
def exUUID : UUID :=
  ⟨[0x79, 0xa8, 0x9d, 0xdf, 0x50, 0x25, 0x4c, 0x75, 0x97, 0x16, 0x64, 0x05, 0xe0, 0x1b, 0x37, 0xc2],
    rfl⟩

/-- A host on which every call succeeds; the program is `/srv/app/godesktop`. -/
def exEnv : Env :=
  ⟨Except.ok "/srv/app/godesktop".toList, exUUID, false, false,
    Except.ok [Addr.ipNet [127, 0, 0, 1] [255, 0, 0, 0], Addr.ipNet [192, 168, 1, 5] [255, 255, 255, 0]],
    fun _ _ _ => Except.ok "PNG".toList, fun _ => "::1".toList, fun _ => OpenError.notExist⟩

/-- A filesystem with the uploads directory and one stored file. -/
def exFS : FS := fun p =>
  if p = "/srv/app/uploads".toList then some Node.dir
  else if p = "/srv/app/uploads/old.txt".toList then some (Node.file "old".toList)
  else none

/-- A `POST /api/v1/texts` with the text `hello` in the field `Raw` of its body. -/
def exTextContext : Context :=
  ⟨"/api/v1/texts".toList, [], [], Except.ok "hello".toList, Except.error "no form".toList⟩

/-- The status of the response, if the handler returned one. -/
def Outcome.status : Outcome → Option Nat
  | Outcome.response r => some r.status
  | Outcome.exit _ => none

/-- A storage failure of an upload of `data` under the name `n`: the failure
of `os.Executable`, of `os.MkdirAll` of the uploads directory, or of the
write of the file. -/
def storageFails (env : Env) (fs : FS) (n data : Str) : Bool :=
  match env.executable with
  | Except.error _ => true
  | Except.ok exe =>
    match MkdirAll env.mkdirFault fs (Join [Dir exe, uploadsName]) with
    | none => true
    | some fs1 => (WriteFile env.writeFault fs1 (Join [Dir exe, Join [uploadsName, n]]) data).isNone

/-- A `POST /api/v1/texts` whose body does not bind. -/
def exBadTextContext : Context :=
  ⟨"/api/v1/texts".toList, [], [], Except.error "invalid character".toList,
    Except.error "no form".toList⟩

/-- A `GET /api/v1/qrcodes?content=http://192.168.1.5:27149/uploads/x.txt`. -/
def exQrContext : Context :=
  ⟨"/api/v1/qrcodes".toList, [],
    [("content".toList, "http://192.168.1.5:27149/uploads/x.txt".toList)],
    Except.error "EOF".toList, Except.error "no form".toList⟩

/-- The final element of a path: the bytes after its last slash. -/
def finalElement (p : Str) : Str := (p.reverse.takeWhile (fun c => c != '/')).reverse

/-- The suffix of a string that starts at its last dot, empty if it has no
dot. -/
def fromLastDot : Str → Str
  | [] => []
  | c :: cs =>
    if fromLastDot cs ≠ [] then fromLastDot cs
    else if c = '.' then c :: cs else []

/-- The extension of a file name in the words of the specification: the
suffix starting at the last dot of its final path element, empty if there is
none. -/
def extensionOf (name : Str) : Str := fromLastDot (finalElement name)

/-- A `POST /api/v1/files` with the file `photo.tar.gz` in the field `raw`. -/
def exFileContext : Context :=
  ⟨"/api/v1/files".toList, [], [], Except.error "EOF".toList,
    Except.ok [("raw".toList, ⟨"photo.tar.gz".toList, "bytes".toList⟩)]⟩

/-- The url of the example text upload. -/
def exUrl : Str := "/uploads/79a89ddf-5025-4c75-9716-6405e01b37c2.txt".toList

/-- A host that reports a name too long for every path of more than 255
bytes at which nothing can be opened. -/
def exNameMaxEnv : Env :=
  ⟨Except.ok "/srv/app/godesktop".toList, exUUID, false, false, Except.ok [],
    fun _ _ _ => Except.ok "PNG".toList, fun _ => [],
    fun p => if 255 < p.length then OpenError.other else OpenError.notExist⟩

/-- A name of 300 bytes. -/
def exLongName : Str := List.replicate 300 'a'

/-- A host whose disk refuses the creation of directories. -/
def exFullDiskEnv : Env :=
  ⟨Except.ok "/srv/app/godesktop".toList, exUUID, true, true, Except.ok [],
    fun _ _ _ => Except.ok "PNG".toList, fun _ => [], fun _ => OpenError.notExist⟩

/-- A host on which QR encoding fails. -/
def exQrFailEnv : Env :=
  ⟨Except.ok "/srv/app/godesktop".toList, exUUID, false, false, Except.ok [],
    fun _ _ _ => Except.error "content too long to encode".toList, fun _ => [],
    fun _ => OpenError.notExist⟩

/-- The entries that qualify, in the words of the specification: an IP
network whose address is IPv4 (it has a 4-byte form) and is not a loopback
address (its first byte is not 127). -/
def isLanAddress : Addr → Bool
  | Addr.ipNet ip _ =>
    match To4 ip with
    | some ip4 => ip4.getD 0 0 != 127
    | none => false
  | Addr.ipAddr _ _ => false

/-- The string form of the address of an entry (`ipnet.IP.String()`). -/
def addrString (env : Env) : Addr → Str
  | Addr.ipNet ip _ => IPString env ip
  | Addr.ipAddr ip _ => IPString env ip

/-- The addresses `AddressesController` puts into its response. -/
def addressesOf (r : Result) : List Str :=
  match r.outcome with
  | Outcome.response ⟨_, _, Body.json _ (JSONValue.strs l)⟩ => l
  | _ => []

/-! ## Theorems -/

set_option maxRecDepth 100000

theorem splitBy_ne_nil (sep : Char → Bool) (s : Str) : splitBy sep s ≠ [] := by
  cases s with
  | nil => simp [splitBy]
  | cons c cs =>
    simp only [splitBy]
    split
    · simp
    · split <;> simp

theorem splitBy_append (sep : Char → Bool) (a b : Str) (c : Char) (hc : sep c = true) :
    splitBy sep (a ++ c :: b) = splitBy sep a ++ splitBy sep b := by
  induction a with
  | nil => simp [splitBy, hc]
  | cons x a ih =>
    simp only [List.cons_append, splitBy]
    by_cases hx : sep x = true
    · simp [hx, ih]
    · cases h : splitBy sep a with
      | nil => exact absurd h (splitBy_ne_nil sep a)
      | cons hd tl => simp [hx, ih, h]

theorem splitBy_of_no_sep (sep : Char → Bool) (e : Str) (h : ∀ c ∈ e, sep c = false) :
    splitBy sep e = [e] := by
  induction e with
  | nil => simp [splitBy]
  | cons x e ih =>
    have hx : sep x = false := h x (List.mem_cons_self _ _)
    have he : ∀ c ∈ e, sep c = false := fun c hc => h c (List.mem_cons_of_mem _ hc)
    simp [splitBy, hx, ih he]

theorem splitBy_congr (s1 s2 : Char → Bool) (v : Str) (h : ∀ c ∈ v, s1 c = s2 c) :
    splitBy s1 v = splitBy s2 v := by
  induction v with
  | nil => simp [splitBy]
  | cons x v ih =>
    have hx : s1 x = s2 x := h x (List.mem_cons_self _ _)
    have hv : ∀ c ∈ v, s1 c = s2 c := fun c hc => h c (List.mem_cons_of_mem _ hc)
    simp [splitBy, hx, ih hv]

theorem splitBy_no_sep_mem (sep : Char → Bool) (s : Str) :
    ∀ e ∈ splitBy sep s, ∀ c ∈ e, sep c = false := by
  induction s with
  | nil => simp [splitBy]
  | cons x s ih =>
    by_cases hx : sep x = true
    · simp only [splitBy, hx, if_true]
      intro e he
      rcases List.mem_cons.1 he with h | h
      · subst h; simp
      · exact ih e h
    · cases h : splitBy sep s with
      | nil => exact absurd h (splitBy_ne_nil sep s)
      | cons hd tl =>
        simp only [splitBy, hx, h]
        rw [h] at ih
        intro e he
        rcases List.mem_cons.1 he with h1 | h1
        · subst h1
          intro c hc
          rcases List.mem_cons.1 hc with h2 | h2
          · subst h2; simpa using hx
          · exact ih hd (List.mem_cons_self _ _) c h2
        · exact ih e (List.mem_cons_of_mem _ h1)

theorem isSlash_false_iff (c : Char) : isSlash c = false ↔ c ≠ '/' := by
  simp [isSlash]

theorem no_slash_iff (e : Str) : (∀ c ∈ e, isSlash c = false) ↔ '/' ∉ e := by
  constructor
  · intro h hm
    have := h _ hm
    simp [isSlash] at this
  · intro h c hc
    rw [isSlash_false_iff]
    rintro rfl
    exact h hc

theorem cleanStep_canon (r : Bool) (st : List Str) (e : Str) (hst : Canon r st)
    (he : '/' ∉ e) : Canon r (cleanStep r st e) := by
  unfold cleanStep
  by_cases h1 : e = []
  · simp [h1, hst]
  by_cases h2 : e = ['.']
  · simp [h2, hst]
  by_cases h3 : e = dotdot
  · simp only [h1, h2, h3, if_false, if_true]
    cases st with
    | nil =>
      cases r <;> simp [Canon, dotdot]
    | cons top rest =>
      by_cases h4 : top = dotdot
      · subst h4
        obtain ⟨a1, a2, a3, a4, a5⟩ := hst
        have hr := (a4 rfl).1
        simp only [if_true]
        refine ⟨by simp [dotdot], by simp [dotdot], by simp [dotdot], ?_, a1, a2, a3, a4, a5⟩
        intro _
        exact ⟨hr, by simp⟩
      · simp only [h4, if_false]
        exact hst.2.2.2.2
  · simp only [h1, h2, h3, if_false]
    exact ⟨h1, he, h2, fun h => absurd h h3, hst⟩

theorem foldl_cleanStep_canon (r : Bool) (l : List Str) (hl : ∀ e ∈ l, '/' ∉ e) :
    ∀ st, Canon r st → Canon r (l.foldl (cleanStep r) st) := by
  induction l with
  | nil => intro st h; simpa using h
  | cons e l ih =>
    intro st h
    simp only [List.foldl_cons]
    exact ih (fun e he => hl e (List.mem_cons_of_mem _ he)) _
      (cleanStep_canon r st e h (hl e (List.mem_cons_self _ _)))

theorem cleanStack_canon (p : Str) : Canon (isRooted p) (cleanStack p) := by
  unfold cleanStack splitSlash
  apply foldl_cleanStep_canon
  · intro e he
    exact (no_slash_iff e).1 (splitBy_no_sep_mem isSlash p e he)
  · trivial

theorem cleanStep_plain (r : Bool) (st : List Str) (f : Str) (hf : Plain f) :
    cleanStep r st f = f :: st := by
  obtain ⟨h1, _, h3, h4⟩ := hf
  simp [cleanStep, h1, h3, h4]

theorem renderRev_cons_cons (e e1 : Str) (rest : List Str) :
    renderRev (e :: e1 :: rest) = renderRev (e1 :: rest) ++ '/' :: e := rfl

theorem isRooted_append (a b : Str) (ha : a ≠ []) : isRooted (a ++ b) = isRooted a := by
  cases a with
  | nil => exact absurd rfl ha
  | cons x a => rfl

theorem renderRev_head (r : Bool) : ∀ st : List Str, Canon r st → st ≠ [] →
    renderRev st ≠ [] ∧ isRooted (renderRev st) = false := by
  intro st
  induction st with
  | nil => intro _ h; exact absurd rfl h
  | cons e st ih =>
    intro hc _
    obtain ⟨a1, a2, _, _, a5⟩ := hc
    cases st with
    | nil =>
      refine ⟨a1, ?_⟩
      cases e with
      | nil => exact absurd rfl a1
      | cons x e =>
        have hx : x ≠ '/' := fun h => a2 (by simp [h])
        simp [renderRev, isRooted, hx]
    | cons e1 rest =>
      obtain ⟨h1, h2⟩ := ih a5 (by simp)
      rw [renderRev_cons_cons]
      exact ⟨by simp [h1], by rw [isRooted_append _ _ h1]; exact h2⟩

theorem foldl_split_renderRev (r : Bool) : ∀ st : List Str, Canon r st → st ≠ [] →
    (splitSlash (renderRev st)).foldl (cleanStep r) [] = st := by
  intro st
  induction st with
  | nil => intro _ h; exact absurd rfl h
  | cons e st ih =>
    intro hc _
    obtain ⟨a1, a2, a3, a4, a5⟩ := hc
    have hsplit : splitSlash e = [e] :=
      splitBy_of_no_sep isSlash e ((no_slash_iff e).2 a2)
    cases st with
    | nil =>
      show (splitSlash e).foldl (cleanStep r) [] = [e]
      rw [hsplit]
      simp only [List.foldl_cons, List.foldl_nil, cleanStep, a1, a3, if_false]
      by_cases h : e = dotdot
      · have hr := (a4 h).1
        simp [h, hr]
      · simp [h]
    | cons e1 rest =>
      rw [renderRev_cons_cons]
      unfold splitSlash at hsplit ⊢
      rw [splitBy_append isSlash _ _ '/' (by simp [isSlash]), hsplit, List.foldl_append]
      have := ih a5 (by simp)
      unfold splitSlash at this
      rw [this]
      simp only [List.foldl_cons, List.foldl_nil, cleanStep, a1, a3, if_false]
      by_cases h : e = dotdot
      · have ht := (a4 h).2 e1 (by simp)
        simp [h, ht]
      · simp [h]

theorem renderClean_ne_nil (r : Bool) (st : List Str) (hc : Canon r st) :
    renderClean r st ≠ [] := by
  unfold renderClean
  cases r with
  | true => simp
  | false =>
    by_cases h : st = []
    · simp [h]
    · simp only [Bool.false_eq_true, if_false, h]
      exact (renderRev_head false st hc h).1

theorem isRooted_renderClean (r : Bool) (st : List Str) (hc : Canon r st) :
    isRooted (renderClean r st) = r := by
  unfold renderClean
  cases r with
  | true => rfl
  | false =>
    by_cases h : st = []
    · simp [h, isRooted]
    · simp only [Bool.false_eq_true, if_false, h]
      exact (renderRev_head false st hc h).2

theorem cleanStack_renderClean (r : Bool) (st : List Str) (hc : Canon r st) :
    cleanStack (renderClean r st) = st := by
  unfold cleanStack
  rw [isRooted_renderClean r st hc]
  cases r with
  | true =>
    by_cases h : st = []
    · subst h; simp [renderClean, renderRev, splitSlash, splitBy, isSlash, cleanStep]
    · have := foldl_split_renderRev true st hc h
      unfold splitSlash at this ⊢
      simp only [renderClean, if_true, splitBy, isSlash, beq_self_eq_true, List.foldl_cons,
        cleanStep]
      exact this
  | false =>
    by_cases h : st = []
    · subst h; simp [renderClean, splitSlash, splitBy, isSlash, cleanStep]
    · simp only [renderClean, Bool.false_eq_true, if_false, h]
      exact foldl_split_renderRev false st hc h

/-- `path.Clean` leaves its own results unchanged. -/
theorem Clean_renderClean (r : Bool) (st : List Str) (hc : Canon r st) :
    Clean (renderClean r st) = renderClean r st := by
  unfold Clean
  rw [if_neg (renderClean_ne_nil r st hc), isRooted_renderClean r st hc,
    cleanStack_renderClean r st hc]

theorem Clean_eq_render (p : Str) (hp : p ≠ []) :
    Clean p = renderClean (isRooted p) (cleanStack p) := by
  unfold Clean; rw [if_neg hp]

theorem cleanStack_push (q f : Str) (hq : q ≠ []) (hf : '/' ∉ f) :
    cleanStack (q ++ '/' :: f) = cleanStep (isRooted q) (cleanStack q) f := by
  unfold cleanStack splitSlash
  rw [isRooted_append q _ hq, splitBy_append isSlash q f '/' (by simp [isSlash]),
    List.foldl_append, splitBy_of_no_sep isSlash f ((no_slash_iff f).2 hf)]
  rfl

/-- Cleaning a non-empty path followed by `/` and a plain element keeps the
elements of the path and adds the new one. -/
theorem Clean_push (q f : Str) (hq : q ≠ []) (hf : Plain f) :
    Clean (q ++ '/' :: f) = renderClean (isRooted q) (f :: cleanStack q) := by
  rw [Clean_eq_render _ (by simp), isRooted_append q _ hq, cleanStack_push q f hq hf.2.1,
    cleanStep_plain _ _ f hf]

theorem renderClean_cons (r : Bool) (f : Str) (st : List Str) (h : st ≠ []) :
    renderClean r (f :: st) = renderClean r st ++ '/' :: f := by
  cases st with
  | nil => exact absurd rfl h
  | cons e rest =>
    cases r <;> simp [renderClean, renderRev_cons_cons]

theorem Canon_push (r : Bool) (f : Str) (st : List Str) (hf : Plain f) (hc : Canon r st) :
    Canon r (f :: st) :=
  ⟨hf.1, hf.2.1, hf.2.2.1, fun h => absurd h hf.2.2.2, hc⟩

theorem Join_two (a b : Str) (ha : a ≠ []) (hb : b ≠ []) :
    Join [a, b] = Clean (a ++ '/' :: b) := by
  simp [Join, joinRaw, ha, hb]

theorem dropToSlash_append (f x : Str) (hf : '/' ∉ f) :
    dropToSlash (f ++ '/' :: x) = '/' :: x := by
  induction f with
  | nil => simp [dropToSlash]
  | cons c f ih =>
    have hc : c ≠ '/' := fun h => hf (by simp [h])
    have hf1 : '/' ∉ f := fun h => hf (List.mem_cons_of_mem _ h)
    simp [dropToSlash, hc, ih hf1]

/-- The directory of a cleaned path followed by `/` and an element without a
slash is that cleaned path. -/
theorem Dir_push (r : Bool) (st : List Str) (f : Str) (hc : Canon r st) (hf : '/' ∉ f) :
    Dir (renderClean r st ++ '/' :: f) = renderClean r st := by
  have hne := renderClean_ne_nil r st hc
  unfold Dir
  have h1 : (renderClean r st ++ '/' :: f).reverse = f.reverse ++ '/' :: (renderClean r st).reverse := by
    simp
  rw [h1, dropToSlash_append _ _ (by simpa using hf)]
  have h2 : ('/' :: (renderClean r st).reverse).reverse = renderClean r st ++ '/' :: [] := by
    simp
  rw [h2, Clean_eq_render _ (by simp), isRooted_append _ _ hne,
    cleanStack_push _ [] hne (by simp), isRooted_renderClean r st hc,
    cleanStack_renderClean r st hc]
  simp [cleanStep]

theorem Clean_ne_nil (p : Str) : Clean p ≠ [] := by
  unfold Clean
  by_cases h : p = []
  · simp [h]
  · rw [if_neg h]
    exact renderClean_ne_nil _ _ (cleanStack_canon p)

theorem Dir_ne_nil (p : Str) : Dir p ≠ [] := Clean_ne_nil _

theorem plain_uploadsName : Plain uploadsName := by
  refine ⟨?_, ?_, ?_, ?_⟩ <;> simp [uploadsName, dotdot]

theorem uploadsName_ne_nil : uploadsName ≠ [] := plain_uploadsName.1

/-- The uploads directory below `dir`, by its elements. -/
theorem Join_uploads (dir : Str) (hd : dir ≠ []) :
    Join [dir, uploadsName]
      = renderClean (isRooted dir) (uploadsName :: cleanStack dir) := by
  rw [Join_two _ _ hd uploadsName_ne_nil, Clean_push dir uploadsName hd plain_uploadsName]

theorem Canon_uploads (dir : Str) :
    Canon (isRooted dir) (uploadsName :: cleanStack dir) :=
  Canon_push _ _ _ plain_uploadsName (cleanStack_canon dir)

/-- The relative path of an upload: `path.Join("uploads", n)` is `uploads/n`
for a plain name `n`. -/
theorem Join_uploadsName (n : Str) (hn : Plain n) :
    Join [uploadsName, n] = uploadsName ++ '/' :: n := by
  rw [Join_two _ _ uploadsName_ne_nil hn.1, Clean_push _ n uploadsName_ne_nil hn]
  have h1 : cleanStack uploadsName = [uploadsName] := by
    simp [cleanStack, splitSlash, splitBy, isSlash, uploadsName, cleanStep, isRooted, dotdot]
  have h2 : isRooted uploadsName = false := by simp [uploadsName, isRooted]
  rw [h1, h2]
  simp [renderClean, renderRev]

/-- Joining a plain name onto the uploads directory appends `/` and the name. -/
theorem Join_uploads_name (dir n : Str) (hd : dir ≠ []) (hn : Plain n) :
    Join [Join [dir, uploadsName], n] = Join [dir, uploadsName] ++ '/' :: n := by
  have hc := Canon_uploads dir
  have hU := Join_uploads dir hd
  have hne : Join [dir, uploadsName] ≠ [] := by
    rw [hU]; exact renderClean_ne_nil _ _ hc
  rw [Join_two _ _ hne hn.1, Clean_push _ n hne hn, hU, isRooted_renderClean _ _ hc,
    cleanStack_renderClean _ _ hc, renderClean_cons _ _ _ (by simp)]

/-- The file an upload is written to is the plain name joined onto the
uploads directory. -/
theorem Join_fullpath (dir n : Str) (hd : dir ≠ []) (hn : Plain n) :
    Join [dir, Join [uploadsName, n]] = Join [Join [dir, uploadsName], n] := by
  have hc := Canon_uploads dir
  rw [Join_uploads_name dir n hd hn, Join_uploadsName n hn,
    Join_two _ _ hd (by simp)]
  have h : dir ++ '/' :: (uploadsName ++ '/' :: n) = (dir ++ '/' :: uploadsName) ++ '/' :: n := by
    simp
  rw [h, Clean_push _ n (by simp) hn, isRooted_append dir _ hd,
    cleanStack_push dir uploadsName hd plain_uploadsName.2.1,
    cleanStep_plain _ _ _ plain_uploadsName, Join_uploads dir hd,
    renderClean_cons _ _ _ (by simp)]

/-- The directory of the file an upload is written to is the uploads
directory. -/
theorem Dir_fullpath (dir n : Str) (hd : dir ≠ []) (hn : Plain n) :
    Dir (Join [dir, Join [uploadsName, n]]) = Join [dir, uploadsName] := by
  rw [Join_fullpath dir n hd hn, Join_uploads_name dir n hd hn, Join_uploads dir hd]
  exact Dir_push _ _ n (Canon_uploads dir) hn.2.1

/-! ### Identifiers -/

theorem hexDigit_mem (n : Nat) : hexDigit n ∈ idChars := by
  unfold hexDigit idChars
  by_cases h : n < 16
  · interval_cases n <;> decide
  · have h1 : "0123456789abcdef".toList.getD n '0' = '0' := by
      apply List.getD_eq_default
      simp
      omega
    rw [h1]
    decide

theorem hexEncode_mem (bs : List Byte) : ∀ c ∈ hexEncode bs, c ∈ idChars := by
  induction bs with
  | nil => simp [hexEncode]
  | cons b bs ih =>
    intro c hc
    simp only [hexEncode, List.mem_cons] at hc
    rcases hc with h | h | h
    · rw [h]; exact hexDigit_mem _
    · rw [h]; exact hexDigit_mem _
    · exact ih c h

theorem mem_append_dash (a b : Str) (ha : ∀ c ∈ a, c ∈ idChars) (hb : ∀ c ∈ b, c ∈ idChars) :
    ∀ c ∈ a ++ '-' :: b, c ∈ idChars := by
  intro c hc
  rcases List.mem_append.1 hc with h | h
  · exact ha c h
  · rcases List.mem_cons.1 h with h1 | h1
    · rw [h1]; decide
    · exact hb c h1

theorem UUID_String_mem (u : UUID) : ∀ c ∈ u.String, c ∈ idChars := by
  unfold UUID.String
  exact mem_append_dash _ _ (mem_append_dash _ _ (mem_append_dash _ _
    (mem_append_dash _ _ (hexEncode_mem _) (hexEncode_mem _)) (hexEncode_mem _))
    (hexEncode_mem _)) (hexEncode_mem _)

theorem UUID_String_ne_nil (u : UUID) : u.String ≠ [] := by
  simp [UUID.String]

theorem idChars_safe : ∀ c ∈ idChars, c ≠ '/' ∧ c ≠ '.' ∧ c ≠ '\\' := by
  decide

/-- An identifier followed by a suffix without a slash is a plain path
element. -/
theorem plain_id_append (u : UUID) (suffix : Str) (hs : '/' ∉ suffix) :
    Plain (u.String ++ suffix) := by
  have hm := UUID_String_mem u
  cases hid : u.String with
  | nil => exact absurd hid (UUID_String_ne_nil u)
  | cons c rest =>
    rw [hid] at hm
    have hc := idChars_safe c (hm c (List.mem_cons_self _ _))
    refine ⟨by simp, ?_, ?_, ?_⟩
    · intro h
      rcases List.mem_append.1 h with h1 | h1
      · exact (idChars_safe '/' (hm _ h1)).1 rfl
      · exact hs h1
    · intro h
      simp only [List.cons_append, List.cons.injEq] at h
      exact hc.2.1 h.1
    · intro h
      simp only [List.cons_append, dotdot, List.cons.injEq] at h
      exact hc.2.1 h.1

/-! ### Extensions -/

theorem extRev_no_slash (l : Str) : ∀ acc : Str, '/' ∉ acc → '/' ∉ extRev l acc := by
  induction l with
  | nil => intro acc _; simp [extRev]
  | cons c l ih =>
    intro acc hacc
    unfold extRev
    by_cases h1 : c = '/'
    · simp [h1]
    · by_cases h2 : c = '.'
      · simp only [h1, h2, if_false, if_true]
        intro h
        rcases List.mem_cons.1 h with h3 | h3
        · exact absurd h3 (by decide)
        · exact hacc h3
      · simp only [h1, h2, if_false]
        apply ih
        intro h
        rcases List.mem_cons.1 h with h3 | h3
        · exact h1 h3.symm
        · exact hacc h3

theorem Ext_no_slash (p : Str) : '/' ∉ Ext p := extRev_no_slash _ [] (by simp)

/-! ### The filesystem operations -/

theorem FS_set_same (fs : FS) (p : Str) (n : Node) : fs.set p n p = some n := by
  simp [FS.set]

theorem FS_set_other (fs : FS) (p q : Str) (n : Node) (h : q ≠ p) : fs.set p n q = fs q := by
  simp [FS.set, h]

/-- The recursion of `os.MkdirAll` changes no path that names something, and
what it adds are directories. -/
theorem mkdirUp_frame (l : List Str) : ∀ fs fs1 : FS, mkdirUp fs l = some fs1 →
    ∀ p, fs1 p = fs p ∨ (fs p = none ∧ fs1 p = some Node.dir) := by
  induction l with
  | nil =>
    intro fs fs1 h p
    simp only [mkdirUp, Option.some.injEq] at h
    left; rw [h]
  | cons q up ih =>
    intro fs fs1 h p
    unfold mkdirUp at h
    cases hq : fs q with
    | none =>
      rw [hq] at h
      simp only [Option.map_eq_some'] at h
      obtain ⟨fs0, h0, h1⟩ := h
      subst h1
      by_cases hp : p = q
      · subst hp
        right
        exact ⟨hq, FS_set_same _ _ _⟩
      · rw [FS_set_other _ _ _ _ hp]
        exact ih fs fs0 h0 p
    | some n =>
      rw [hq] at h
      cases n with
      | file b => simp at h
      | dir =>
        simp only [Option.some.injEq] at h
        left; rw [h]

theorem mkdirUp_head (q : Str) (up : List Str) (fs fs1 : FS)
    (h : mkdirUp fs (q :: up) = some fs1) : fs1 q = some Node.dir := by
  unfold mkdirUp at h
  cases hq : fs q with
  | none =>
    rw [hq] at h
    simp only [Option.map_eq_some'] at h
    obtain ⟨fs0, _, h1⟩ := h
    subst h1
    exact FS_set_same _ _ _
  | some n =>
    rw [hq] at h
    cases n with
    | file b => simp at h
    | dir =>
      simp only [Option.some.injEq] at h
      rw [← h]; exact hq

theorem ancestorsUp_uploads (dir : Str) (hd : dir ≠ []) :
    ancestorsUp (isRooted (Join [dir, uploadsName])) (cleanStack (Join [dir, uploadsName]))
      = Join [dir, uploadsName] :: ancestorsUp (isRooted dir) (cleanStack dir) := by
  rw [Join_uploads dir hd, isRooted_renderClean _ _ (Canon_uploads dir),
    cleanStack_renderClean _ _ (Canon_uploads dir)]
  rfl

/-- When `os.MkdirAll` of the uploads directory succeeds the directory exists
afterwards, no path that named something has changed, and every path added
is a directory. -/
theorem MkdirAll_uploads (fault : Bool) (fs fs1 : FS) (dir : Str) (hd : dir ≠ [])
    (h : MkdirAll fault fs (Join [dir, uploadsName]) = some fs1) :
    fault = false ∧ fs1 (Join [dir, uploadsName]) = some Node.dir ∧
      ∀ p, fs1 p = fs p ∨ (fs p = none ∧ fs1 p = some Node.dir) := by
  unfold MkdirAll at h
  cases fault with
  | true => simp at h
  | false =>
    simp only [Bool.false_eq_true, if_false] at h
    refine ⟨rfl, ?_, mkdirUp_frame _ fs fs1 h⟩
    rw [ancestorsUp_uploads dir hd] at h
    exact mkdirUp_head _ _ fs fs1 h

/-- A directory that exists already is not an error for `os.MkdirAll`, and
nothing changes. -/
theorem MkdirAll_existing (fs : FS) (dir : Str) (hd : dir ≠ [])
    (h : fs (Join [dir, uploadsName]) = some Node.dir) :
    MkdirAll false fs (Join [dir, uploadsName]) = some fs := by
  unfold MkdirAll
  simp only [Bool.false_eq_true, if_false]
  rw [ancestorsUp_uploads dir hd]
  simp [mkdirUp, h]

theorem WriteFile_some (fault : Bool) (fs fs2 : FS) (name data : Str)
    (h : WriteFile fault fs name data = some fs2) :
    fault = false ∧ fs name ≠ some Node.dir ∧ fs (Dir name) = some Node.dir ∧
      fs2 = fs.set name (Node.file data) := by
  unfold WriteFile at h
  cases fault with
  | true => simp at h
  | false =>
    simp only [Bool.false_eq_true, if_false] at h
    by_cases h1 : fs name = some Node.dir
    · simp [h1] at h
    · by_cases h2 : fs (Dir name) = some Node.dir
      · refine ⟨rfl, h1, h2, ?_⟩
        split at h
        · simp at h
        · simp only [h2, Option.some.injEq] at h
          exact h.symm
      · exfalso
        split at h
        · simp at h
        · split at h
          · rename_i h3; exact h2 h3
          · simp at h

theorem WriteFile_ok (fs : FS) (name data : Str) (h1 : fs name ≠ some Node.dir)
    (h2 : fs (Dir name) = some Node.dir) :
    WriteFile false fs name data = some (fs.set name (Node.file data)) := by
  unfold WriteFile
  cases h3 : fs name with
  | none => simp [h2]
  | some n =>
    cases n with
    | file b => simp [h2]
    | dir => exact absurd h3 h1

/-! ### The upload handlers -/

/-- The name of the file of a text upload. -/
theorem plain_txt (u : UUID) : Plain (u.String ++ ".txt".toList) :=
  plain_id_append u _ (by decide)

/-- The name of the file of a file upload. -/
theorem plain_ext (u : UUID) (name : Str) : Plain (u.String ++ Ext name) :=
  plain_id_append u _ (Ext_no_slash name)

/-- When `TextsController` returns for a bound body, every call to the
environment has succeeded and the response is 200 with the url. -/
theorem TextsController_response (env : Env) (fs : FS) (c : Context) (raw : Str) (r : Response)
    (hb : c.bindJSON = Except.ok raw)
    (h : (TextsController env fs c).outcome = Outcome.response r) :
    ∃ exe fs1, env.executable = Except.ok exe ∧
      MkdirAll env.mkdirFault fs (Join [Dir exe, uploadsName]) = some fs1 ∧
      WriteFile env.writeFault fs1
        (Join [Dir exe, Join [uploadsName, env.newUUID.String ++ ".txt".toList]]) raw
        = some (TextsController env fs c).fs ∧
      r = ⟨200, [], Body.json "url".toList
        (JSONValue.str ('/' :: Join [uploadsName, env.newUUID.String ++ ".txt".toList]))⟩ ∧
      (TextsController env fs c).calls =
        [Call.executable, Call.uuidNew, Call.mkdirAll (Join [Dir exe, uploadsName]) ModePerm,
          Call.writeFile
            (Join [Dir exe, Join [uploadsName, env.newUUID.String ++ ".txt".toList]]) raw 0o644] := by
  unfold TextsController at h ⊢
  rw [hb] at h ⊢
  cases hexe : env.executable with
  | error e => rw [hexe] at h; simp [logFatal] at h
  | ok exe =>
    simp only [hexe] at h ⊢
    cases hmk : MkdirAll env.mkdirFault fs (Join [Dir exe, uploadsName]) with
    | none => rw [hmk] at h; simp [logFatal] at h
    | some fs1 =>
      simp only [hmk] at h ⊢
      cases hw : WriteFile env.writeFault fs1
          (Join [Dir exe, Join [uploadsName, env.newUUID.String ++ ".txt".toList]]) raw with
      | none => rw [hw] at h; simp [logFatal] at h
      | some fs2 =>
        simp only [hw] at h ⊢
        simp only [Outcome.response.injEq] at h
        exact ⟨exe, fs1, rfl, hmk, hw, h.symm, rfl⟩

/-- When `FilesController` returns, the file part was there, every call to
the environment has succeeded and the response is 200 with the url. -/
theorem FilesController_response (env : Env) (fs : FS) (c : Context) (r : Response)
    (h : (FilesController env fs c).outcome = Outcome.response r) :
    ∃ file exe fs1, c.FormFile "raw".toList = Except.ok file ∧
      env.executable = Except.ok exe ∧
      MkdirAll env.mkdirFault fs (Join [Dir exe, uploadsName]) = some fs1 ∧
      WriteFile env.writeFault fs1
        (Join [Dir exe, Join [uploadsName, env.newUUID.String ++ Ext file.Filename]])
        file.content = some (FilesController env fs c).fs ∧
      r = ⟨200, [], Body.json "url".toList
        (JSONValue.str ('/' :: Join [uploadsName, env.newUUID.String ++ Ext file.Filename]))⟩ := by
  unfold FilesController at h ⊢
  cases hf : c.FormFile "raw".toList with
  | error e => rw [hf] at h; simp [logFatal] at h
  | ok file =>
    simp only [hf] at h ⊢
    cases hexe : env.executable with
    | error e => rw [hexe] at h; simp [logFatal] at h
    | ok exe =>
      simp only [hexe] at h ⊢
      cases hmk : MkdirAll env.mkdirFault fs (Join [Dir exe, uploadsName]) with
      | none => rw [hmk] at h; simp [logFatal] at h
      | some fs1 =>
        simp only [hmk] at h ⊢
        cases hw : SaveUploadedFile env.writeFault fs1 file
            (Join [Dir exe, Join [uploadsName, env.newUUID.String ++ Ext file.Filename]]) with
        | none => rw [hw] at h; simp [logFatal] at h
        | some fs2 =>
          simp only [hw] at h ⊢
          simp only [Outcome.response.injEq] at h
          exact ⟨file, exe, fs1, rfl, rfl, hmk, hw, h.symm⟩

/-- The effect on the filesystem of a completed upload of `data` under the
plain name `n`: the file `uploads/n` below `dir` holds `data`; unless that
path named a file before, every file is kept with its bytes, and the only new
file is that one. -/
theorem upload_effect (mfault wfault : Bool) (fs fs1 fs2 : FS) (dir n data : Str)
    (hd : dir ≠ []) (hn : Plain n)
    (hmk : MkdirAll mfault fs (Join [dir, uploadsName]) = some fs1)
    (hw : WriteFile wfault fs1 (Join [dir, Join [uploadsName, n]]) data = some fs2) :
    fs2 (Join [dir, uploadsName] ++ '/' :: n) = some (Node.file data) ∧
    fs2 (Join [dir, uploadsName]) = some Node.dir ∧
    ((∀ b, fs (Join [dir, uploadsName] ++ '/' :: n) ≠ some (Node.file b)) →
      fs (Join [dir, uploadsName] ++ '/' :: n) = none ∧
      (∀ p b, fs p = some (Node.file b) → fs2 p = some (Node.file b)) ∧
      (∀ p b, fs2 p = some (Node.file b) →
        p = Join [dir, uploadsName] ++ '/' :: n ∨ fs p = some (Node.file b))) := by
  have hT : Join [dir, Join [uploadsName, n]] = Join [dir, uploadsName] ++ '/' :: n := by
    rw [Join_fullpath dir n hd hn, Join_uploads_name dir n hd hn]
  rw [hT] at hw
  obtain ⟨_, hU, hframe⟩ := MkdirAll_uploads mfault fs fs1 dir hd hmk
  obtain ⟨_, hnd, _, hset⟩ := WriteFile_some wfault fs1 fs2 _ data hw
  subst hset
  have hne : Join [dir, uploadsName] ≠ Join [dir, uploadsName] ++ '/' :: n := by
    intro h
    have := congrArg List.length h
    simp at this
  refine ⟨FS_set_same _ _ _, ?_, ?_⟩
  · rw [FS_set_other _ _ _ _ hne]; exact hU
  · intro hnf
    have hnone : fs (Join [dir, uploadsName] ++ '/' :: n) = none := by
      rcases hframe (Join [dir, uploadsName] ++ '/' :: n) with h | ⟨h, _⟩
      · cases hx : fs (Join [dir, uploadsName] ++ '/' :: n) with
        | none => rfl
        | some nd =>
          cases nd with
          | file b => exact absurd hx (hnf b)
          | dir => rw [hx] at h; exact absurd h hnd
      · exact h
    refine ⟨hnone, ?_, ?_⟩
    · intro p b hp
      have hpT : p ≠ Join [dir, uploadsName] ++ '/' :: n := by
        rintro rfl
        rw [hnone] at hp
        simp at hp
      rw [FS_set_other _ _ _ _ hpT]
      rcases hframe p with h | ⟨h, _⟩
      · rw [h]; exact hp
      · rw [h] at hp; simp at hp
    · intro p b hp
      by_cases hpT : p = Join [dir, uploadsName] ++ '/' :: n
      · left; exact hpT
      · right
        rw [FS_set_other _ _ _ _ hpT] at hp
        rcases hframe p with h | ⟨_, h⟩
        · rw [← h]; exact hp
        · rw [h] at hp; simp at hp

/-- When no storage call fails, `TextsController` returns a response for a
bound body. -/
theorem TextsController_returns (env : Env) (fs : FS) (c : Context) (raw : Str)
    (hb : c.bindJSON = Except.ok raw)
    (hs : storageFails env fs (env.newUUID.String ++ ".txt".toList) raw = false) :
    ∃ r, (TextsController env fs c).outcome = Outcome.response r := by
  unfold storageFails at hs
  unfold TextsController
  rw [hb]
  cases hexe : env.executable with
  | error e => rw [hexe] at hs; simp at hs
  | ok exe =>
    simp only [hexe] at hs ⊢
    cases hmk : MkdirAll env.mkdirFault fs (Join [Dir exe, uploadsName]) with
    | none => rw [hmk] at hs; simp at hs
    | some fs1 =>
      simp only [hmk] at hs ⊢
      cases hw : WriteFile env.writeFault fs1
          (Join [Dir exe, Join [uploadsName, env.newUUID.String ++ ".txt".toList]]) raw with
      | none => rw [hw] at hs; simp at hs
      | some fs2 => exact ⟨_, rfl⟩

/-- C5 (amended: text upload result).  For every text payload `raw` and every
generated identifier `id`: when `TextsController` accepts the body and no
storage call fails (`os.Executable`, `os.MkdirAll` of the uploads directory,
the file write), the storage directory is the directory `uploads` joined onto
the directory of the running program (what `GetUploadsDir` returns); the calls
the handler makes are `os.Executable`, `uuid.New`, one `os.MkdirAll` of the
storage directory with `os.ModePerm` and exactly one `ioutil.WriteFile`, of the
bytes `raw` to `<storage_dir>/<id>.txt`; that file holds exactly `raw`
afterwards; and the answer is 200 with the url `/` followed by
`uploads/<id>.txt`. -/
theorem text_upload_result (env : Env) (fs : FS) (c : Context) (raw : Str)
    (hb : c.bindJSON = Except.ok raw)
    (hs : storageFails env fs (env.newUUID.String ++ ".txt".toList) raw = false) :
    ∃ exe storage, env.executable = Except.ok exe ∧
      storage = Join [Dir exe, uploadsName] ∧ GetUploadsDir env = some storage ∧
      (TextsController env fs c).calls =
        [Call.executable, Call.uuidNew, Call.mkdirAll storage ModePerm,
          Call.writeFile (storage ++ '/' :: (env.newUUID.String ++ ".txt".toList)) raw 0o644] ∧
      (TextsController env fs c).fs (storage ++ '/' :: (env.newUUID.String ++ ".txt".toList))
        = some (Node.file raw) ∧
      (TextsController env fs c).outcome =
        Outcome.response ⟨200, [], Body.json "url".toList
          (JSONValue.str ("/uploads/".toList ++ (env.newUUID.String ++ ".txt".toList)))⟩ := by
  obtain ⟨r, h⟩ := TextsController_returns env fs c raw hb hs
  obtain ⟨exe, fs1, hexe, hmk, hw, hr, hcalls⟩ := TextsController_response env fs c raw r hb h
  have hd := Dir_ne_nil exe
  have hn := plain_txt env.newUUID
  have hT : Join [Dir exe, Join [uploadsName, env.newUUID.String ++ ".txt".toList]]
      = Join [Dir exe, uploadsName] ++ '/' :: (env.newUUID.String ++ ".txt".toList) := by
    rw [Join_fullpath _ _ hd hn, Join_uploads_name _ _ hd hn]
  refine ⟨exe, _, hexe, rfl, by simp [GetUploadsDir, hexe], ?_, ?_, ?_⟩
  · rw [hcalls, hT]
  · exact (upload_effect _ _ fs fs1 _ (Dir exe) _ raw hd hn hmk hw).1
  · rw [h, hr, Join_uploadsName _ hn]
    simp [uploadsName]

/-- The text `hello` uploaded on the example host. -/
theorem text_upload_result_witness :
    ∃ exe storage, exEnv.executable = Except.ok exe ∧
      storage = Join [Dir exe, uploadsName] ∧ GetUploadsDir exEnv = some storage ∧
      (TextsController exEnv exFS exTextContext).calls =
        [Call.executable, Call.uuidNew, Call.mkdirAll storage ModePerm,
          Call.writeFile (storage ++ '/' :: (exEnv.newUUID.String ++ ".txt".toList))
            "hello".toList 0o644] ∧
      (TextsController exEnv exFS exTextContext).fs
          (storage ++ '/' :: (exEnv.newUUID.String ++ ".txt".toList))
        = some (Node.file "hello".toList) ∧
      (TextsController exEnv exFS exTextContext).outcome =
        Outcome.response ⟨200, [], Body.json "url".toList
          (JSONValue.str ("/uploads/".toList ++ (exEnv.newUUID.String ++ ".txt".toList)))⟩ :=
  text_upload_result exEnv exFS exTextContext "hello".toList rfl (by decide)

theorem malformed_text_upload_aux (env : Env) (fs : FS) (c : Context) (err : Str)
    (hb : c.bindJSON = Except.error err) :
    (TextsController env fs c).outcome.status = some 400 := by
  unfold TextsController
  rw [hb]
  rfl

/-- C6 (a malformed text upload changes nothing).  For every request whose
body is missing or does not bind (`c.ShouldBindJSON` returns an error),
`TextsController` answers 400, the filesystem after the request is the
filesystem before it, and the handler has made no call to its environment:
no directory is created, no file is written, no identifier is generated. -/
theorem malformed_text_upload (env : Env) (fs : FS) (c : Context) (err : Str)
    (hb : c.bindJSON = Except.error err) :
    (TextsController env fs c).outcome.status = some 400 ∧
    (TextsController env fs c).fs = fs ∧
    (TextsController env fs c).calls = [] := by
  unfold TextsController
  rw [hb]
  exact ⟨rfl, rfl, rfl⟩

/-- A body that does not bind, on the example host. -/
theorem malformed_text_upload_witness :
    exBadTextContext.bindJSON = Except.error "invalid character".toList ∧
    (TextsController exEnv exFS exBadTextContext).outcome.status = some 400 ∧
    (TextsController exEnv exFS exBadTextContext).fs = exFS ∧
    (TextsController exEnv exFS exBadTextContext).calls = [] :=
  ⟨rfl, malformed_text_upload exEnv exFS exBadTextContext "invalid character".toList rfl⟩

/-- C8 (empty QR content is a client error).  `QrcodesController` answers 400
exactly when the query parameter `content` is missing or empty, and then it
makes no call at all, so the encoder is not invoked; for every non-empty
content its only call is `qrcode.Encode` with that content, the level
`Medium` and the size 256. -/
theorem qrcodes_empty_content (env : Env) (fs : FS) (c : Context) :
    ((QrcodesController env fs c).outcome.status = some 400 ↔
      (c.query.lookup "content".toList = none ∨ c.query.lookup "content".toList = some [])) ∧
    ((c.query.lookup "content".toList = none ∨ c.query.lookup "content".toList = some []) →
      (QrcodesController env fs c).calls = []) ∧
    (∀ content, c.query.lookup "content".toList = some content → content ≠ [] →
      (QrcodesController env fs c).calls = [Call.qrEncode content RecoveryLevel.Medium 256]) := by
  unfold QrcodesController Context.Query
  cases hq : c.query.lookup "content".toList with
  | none => simp [Outcome.status]
  | some content =>
    by_cases hc : content = []
    · simp [hc, Outcome.status]
    · simp only [ne_eq, hc, not_false_eq_true, if_true, Option.some.injEq, or_self,
        iff_false, false_or, false_implies, true_and, reduceCtorEq]
      cases henc : env.qrEncode content RecoveryLevel.Medium 256 with
      | error e =>
        refine ⟨by simp [logFatal, Outcome.status], ?_⟩
        intro x hx _
        rw [← hx]
        rfl
      | ok png =>
        refine ⟨by simp [Outcome.status], ?_⟩
        intro x hx _
        rw [← hx]

/-- A request with content and one without, on the example host. -/
theorem qrcodes_empty_content_witness :
    (QrcodesController exEnv exFS exQrContext).calls =
        [Call.qrEncode "http://192.168.1.5:27149/uploads/x.txt".toList RecoveryLevel.Medium 256] ∧
    (QrcodesController exEnv exFS exBadTextContext).calls = [] :=
  ⟨(qrcodes_empty_content exEnv exFS exQrContext).2.2 _ rfl (by decide),
   (qrcodes_empty_content exEnv exFS exBadTextContext).2.1 (Or.inl rfl)⟩

theorem fromLastDot_eq_nil_iff (x : Str) : fromLastDot x = [] ↔ '.' ∉ x := by
  induction x with
  | nil => simp [fromLastDot]
  | cons c x ih =>
    unfold fromLastDot
    by_cases h : fromLastDot x = []
    · have hx := ih.1 h
      by_cases hc : c = '.'
      · simp [h, hc]
      · simp [h, hc, hx, Ne.symm hc]
    · have hx : '.' ∈ x := by
        by_contra hn
        exact h (ih.2 hn)
      simp [h, hx]

theorem fromLastDot_snoc_dot (x : Str) : fromLastDot (x ++ ['.']) = ['.'] := by
  induction x with
  | nil => simp [fromLastDot]
  | cons c x ih => simp [fromLastDot, ih]

theorem fromLastDot_snoc (x : Str) (c : Char) (hc : c ≠ '.') (hx : '.' ∈ x) :
    fromLastDot (x ++ [c]) = fromLastDot x ++ [c] := by
  induction x with
  | nil => simp at hx
  | cons d x ih =>
    by_cases hx1 : '.' ∈ x
    · have h1 : fromLastDot x ≠ [] := fun h => (fromLastDot_eq_nil_iff x).1 h hx1
      simp [fromLastDot, ih hx1, h1]
    · have hd : d = '.' := by
        rcases List.mem_cons.1 hx with h | h
        · exact h.symm
        · exact absurd h hx1
      have h1 : fromLastDot x = [] := (fromLastDot_eq_nil_iff x).2 hx1
      have h2 : fromLastDot (x ++ [c]) = [] := by
        rw [fromLastDot_eq_nil_iff]
        simp [hx1, Ne.symm hc]
      simp [fromLastDot, h1, h2, hd]

theorem extRev_scan (l : Str) : ∀ (acc t : Str), '/' ∉ l → (t = [] ∨ ∃ t1, t = '/' :: t1) →
    extRev (l ++ t) acc = if '.' ∈ l then fromLastDot l.reverse ++ acc else [] := by
  induction l with
  | nil =>
    intro acc t _ ht
    rcases ht with h | ⟨t1, h⟩ <;> simp [h, extRev]
  | cons c l ih =>
    intro acc t hl ht
    have hc : c ≠ '/' := fun h => hl (by simp [h])
    have hl1 : '/' ∉ l := fun h => hl (List.mem_cons_of_mem _ h)
    simp only [List.cons_append, extRev, hc, if_false]
    by_cases hd : c = '.'
    · simp [hd, fromLastDot_snoc_dot]
    · have ih1 := ih (c :: acc) t hl1 ht
      simp only [hd, if_false, List.mem_cons, List.reverse_cons]
      have ih2 : extRev (l.append t) (c :: acc)
          = if '.' ∈ l then fromLastDot l.reverse ++ c :: acc else [] := ih1
      rw [ih2]
      by_cases hm : '.' ∈ l
      · simp [hm, fromLastDot_snoc _ c hd (List.mem_reverse.2 hm)]
      · simp [hm, Ne.symm hd]

/-- Go `filepath.Ext` is the extension in the words of the specification. -/
theorem Ext_eq_extensionOf (name : Str) : Ext name = extensionOf name := by
  unfold Ext extensionOf finalElement
  have hsplit := List.takeWhile_append_dropWhile (fun c => c != '/') name.reverse
  have hno : '/' ∉ name.reverse.takeWhile (fun c => c != '/') := by
    intro h
    have := List.mem_takeWhile_imp h
    simp at this
  have ht : name.reverse.dropWhile (fun c => c != '/') = [] ∨
      ∃ t1, name.reverse.dropWhile (fun c => c != '/') = '/' :: t1 := by
    cases hdw : name.reverse.dropWhile (fun c => c != '/') with
    | nil => exact Or.inl rfl
    | cons d t1 =>
      right
      have := List.head_dropWhile_not (fun c => c != '/') name.reverse
      simp only [hdw] at this
      have hd : d = '/' := by simpa using this (by simp)
      exact ⟨t1, by rw [hd]⟩
  conv_lhs => rw [← hsplit]
  rw [extRev_scan _ [] _ hno ht]
  by_cases hm : '.' ∈ name.reverse.takeWhile (fun c => c != '/')
  · simp [hm]
  · simp only [hm, if_false]
    symm
    rw [fromLastDot_eq_nil_iff]
    simpa using hm

/-- C4 (a file upload preserves the extension).  Whenever `FilesController`
succeeds, with `file` the uploaded part and `id` the generated identifier, it
answers 200 with the url `/uploads/` followed by `id` and the extension of
the file name, where the extension (`filepath.Ext`) is the suffix starting at
the last dot of the final path element of the name, empty if there is none;
the cleaning of `path.Join` leaves `uploads/<id><ext>` as it is, and
`<id><ext>` contains no slash, so the url has a single segment after
`/uploads/`. -/
theorem file_upload_extension (env : Env) (fs : FS) (c : Context) (r : Response)
    (h : (FilesController env fs c).outcome = Outcome.response r) :
    ∃ file, c.FormFile "raw".toList = Except.ok file ∧
      r.status = 200 ∧
      r.body = Body.json "url".toList
        (JSONValue.str ("/uploads/".toList ++ (env.newUUID.String ++ Ext file.Filename))) ∧
      Ext file.Filename = extensionOf file.Filename ∧
      Join [uploadsName, env.newUUID.String ++ Ext file.Filename]
        = uploadsName ++ '/' :: (env.newUUID.String ++ Ext file.Filename) ∧
      '/' ∉ env.newUUID.String ++ Ext file.Filename := by
  obtain ⟨file, exe, fs1, hf, _, _, _, hr⟩ := FilesController_response env fs c r h
  have hn := plain_ext env.newUUID file.Filename
  refine ⟨file, hf, by rw [hr], ?_, Ext_eq_extensionOf _, Join_uploadsName _ hn, hn.2.1⟩
  rw [hr, Join_uploadsName _ hn]
  simp [uploadsName]

/-- The file `photo.tar.gz` uploaded on the example host: the extension is `.gz`. -/
theorem file_upload_extension_witness :
    ∃ file, exFileContext.FormFile "raw".toList = Except.ok file ∧
      (200 : Nat) = 200 ∧
      Body.json "url".toList
          (JSONValue.str "/uploads/79a89ddf-5025-4c75-9716-6405e01b37c2.gz".toList)
        = Body.json "url".toList
          (JSONValue.str ("/uploads/".toList ++ (exEnv.newUUID.String ++ Ext file.Filename))) ∧
      Ext file.Filename = extensionOf file.Filename ∧
      Join [uploadsName, exEnv.newUUID.String ++ Ext file.Filename]
        = uploadsName ++ '/' :: (exEnv.newUUID.String ++ Ext file.Filename) ∧
      '/' ∉ exEnv.newUUID.String ++ Ext file.Filename :=
  file_upload_extension exEnv exFS exFileContext
    ⟨200, [], Body.json "url".toList
      (JSONValue.str "/uploads/79a89ddf-5025-4c75-9716-6405e01b37c2.gz".toList)⟩
    (by decide)

/-- When the environment and the filesystem let an upload through, the
handler's filesystem is the old one with the new file. -/
theorem TextsController_ok (env : Env) (fs : FS) (c : Context) (raw exe : Str)
    (hb : c.bindJSON = Except.ok raw) (hexe : env.executable = Except.ok exe)
    (hm : env.mkdirFault = false) (hw : env.writeFault = false)
    (hU : fs (Join [Dir exe, uploadsName]) = some Node.dir)
    (hT : fs (Join [Dir exe, uploadsName] ++ '/' :: (env.newUUID.String ++ ".txt".toList)) = none) :
    (TextsController env fs c).outcome.status = some 200 ∧
    (TextsController env fs c).fs =
      fs.set (Join [Dir exe, uploadsName] ++ '/' :: (env.newUUID.String ++ ".txt".toList))
        (Node.file raw) := by
  have hd := Dir_ne_nil exe
  have hn := plain_txt env.newUUID
  have hTe : Join [Dir exe, Join [uploadsName, env.newUUID.String ++ ".txt".toList]]
      = Join [Dir exe, uploadsName] ++ '/' :: (env.newUUID.String ++ ".txt".toList) := by
    rw [Join_fullpath _ _ hd hn, Join_uploads_name _ _ hd hn]
  have hDir : Dir (Join [Dir exe, uploadsName] ++ '/' :: (env.newUUID.String ++ ".txt".toList))
      = Join [Dir exe, uploadsName] := by
    rw [← hTe]; exact Dir_fullpath _ _ hd hn
  unfold TextsController
  simp only [hb, hexe, hm, hw, MkdirAll_existing fs _ hd hU, hTe]
  rw [WriteFile_ok fs _ raw (by rw [hT]; simp) (by rw [hDir]; exact hU)]
  exact ⟨rfl, rfl⟩

theorem FilesController_ok (env : Env) (fs : FS) (c : Context) (file : FileHeader) (exe : Str)
    (hf : c.FormFile "raw".toList = Except.ok file) (hexe : env.executable = Except.ok exe)
    (hm : env.mkdirFault = false) (hw : env.writeFault = false)
    (hU : fs (Join [Dir exe, uploadsName]) = some Node.dir)
    (hT : fs (Join [Dir exe, uploadsName] ++ '/' :: (env.newUUID.String ++ Ext file.Filename))
      = none) :
    (FilesController env fs c).outcome.status = some 200 ∧
    (FilesController env fs c).fs =
      fs.set (Join [Dir exe, uploadsName] ++ '/' :: (env.newUUID.String ++ Ext file.Filename))
        (Node.file file.content) := by
  have hd := Dir_ne_nil exe
  have hn := plain_ext env.newUUID file.Filename
  have hTe : Join [Dir exe, Join [uploadsName, env.newUUID.String ++ Ext file.Filename]]
      = Join [Dir exe, uploadsName] ++ '/' :: (env.newUUID.String ++ Ext file.Filename) := by
    rw [Join_fullpath _ _ hd hn, Join_uploads_name _ _ hd hn]
  have hDir : Dir (Join [Dir exe, uploadsName] ++ '/' :: (env.newUUID.String ++ Ext file.Filename))
      = Join [Dir exe, uploadsName] := by
    rw [← hTe]; exact Dir_fullpath _ _ hd hn
  unfold FilesController SaveUploadedFile
  simp only [hf, hexe, hm, hw, MkdirAll_existing fs _ hd hU, hTe]
  rw [WriteFile_ok fs _ file.content (by rw [hT]; simp) (by rw [hDir]; exact hU)]
  exact ⟨rfl, rfl⟩

/-- C10 (the store is append-only).  For every filesystem state and every
text or file upload that succeeds and whose target, the file named by the
generated identifier in the uploads directory, is not a file already: the
target named nothing before; every file that existed before the upload still
exists afterwards with the same bytes; the files afterwards are those files
and the target, which holds the uploaded bytes, so exactly one file is added.
An uploads directory that exists already is not an error: on a host that
refuses nothing, with the directory there and the target naming nothing, the
upload answers 200 and the filesystem is the old one with the new file. -/
theorem store_append_only (env : Env) (fs : FS) (c : Context) :
    (∀ raw r, c.bindJSON = Except.ok raw →
      (TextsController env fs c).outcome = Outcome.response r →
      ∃ storage, GetUploadsDir env = some storage ∧
        ((∀ b, fs (storage ++ '/' :: (env.newUUID.String ++ ".txt".toList))
            ≠ some (Node.file b)) →
          fs (storage ++ '/' :: (env.newUUID.String ++ ".txt".toList)) = none ∧
          (TextsController env fs c).fs (storage ++ '/' :: (env.newUUID.String ++ ".txt".toList))
            = some (Node.file raw) ∧
          (∀ p b, fs p = some (Node.file b) →
            (TextsController env fs c).fs p = some (Node.file b)) ∧
          (∀ p b, (TextsController env fs c).fs p = some (Node.file b) →
            p = storage ++ '/' :: (env.newUUID.String ++ ".txt".toList) ∨
            fs p = some (Node.file b)))) ∧
    (∀ r, (FilesController env fs c).outcome = Outcome.response r →
      ∃ storage file, GetUploadsDir env = some storage ∧
        c.FormFile "raw".toList = Except.ok file ∧
        ((∀ b, fs (storage ++ '/' :: (env.newUUID.String ++ Ext file.Filename))
            ≠ some (Node.file b)) →
          fs (storage ++ '/' :: (env.newUUID.String ++ Ext file.Filename)) = none ∧
          (FilesController env fs c).fs
            (storage ++ '/' :: (env.newUUID.String ++ Ext file.Filename))
            = some (Node.file file.content) ∧
          (∀ p b, fs p = some (Node.file b) →
            (FilesController env fs c).fs p = some (Node.file b)) ∧
          (∀ p b, (FilesController env fs c).fs p = some (Node.file b) →
            p = storage ++ '/' :: (env.newUUID.String ++ Ext file.Filename) ∨
            fs p = some (Node.file b)))) ∧
    (∀ storage, GetUploadsDir env = some storage → fs storage = some Node.dir →
      env.mkdirFault = false → env.writeFault = false →
      (∀ raw, c.bindJSON = Except.ok raw →
        fs (storage ++ '/' :: (env.newUUID.String ++ ".txt".toList)) = none →
        (TextsController env fs c).outcome.status = some 200 ∧
        (TextsController env fs c).fs =
          fs.set (storage ++ '/' :: (env.newUUID.String ++ ".txt".toList)) (Node.file raw)) ∧
      (∀ file, c.FormFile "raw".toList = Except.ok file →
        fs (storage ++ '/' :: (env.newUUID.String ++ Ext file.Filename)) = none →
        (FilesController env fs c).outcome.status = some 200 ∧
        (FilesController env fs c).fs =
          fs.set (storage ++ '/' :: (env.newUUID.String ++ Ext file.Filename))
            (Node.file file.content))) := by
  refine ⟨?_, ?_, ?_⟩
  · intro raw r hb h
    obtain ⟨exe, fs1, hexe, hmk, hw, _, _⟩ := TextsController_response env fs c raw r hb h
    refine ⟨Join [Dir exe, uploadsName], by simp [GetUploadsDir, hexe], ?_⟩
    intro hnf
    have he := upload_effect _ _ fs fs1 _ (Dir exe) _ raw (Dir_ne_nil exe)
      (plain_txt env.newUUID) hmk hw
    obtain ⟨h1, h2, h3⟩ := he.2.2 hnf
    exact ⟨h1, he.1, h2, h3⟩
  · intro r h
    obtain ⟨file, exe, fs1, hf, hexe, hmk, hw, _⟩ := FilesController_response env fs c r h
    refine ⟨Join [Dir exe, uploadsName], file, by simp [GetUploadsDir, hexe], hf, ?_⟩
    intro hnf
    have he := upload_effect _ _ fs fs1 _ (Dir exe) _ file.content (Dir_ne_nil exe)
      (plain_ext env.newUUID file.Filename) hmk hw
    obtain ⟨h1, h2, h3⟩ := he.2.2 hnf
    exact ⟨h1, he.1, h2, h3⟩
  · intro storage hs hdir hm hw
    unfold GetUploadsDir at hs
    cases hexe : env.executable with
    | error e => rw [hexe] at hs; simp at hs
    | ok exe =>
      rw [hexe] at hs
      simp only [Option.some.injEq] at hs
      subst hs
      exact ⟨fun raw hb hT => TextsController_ok env fs c raw exe hb hexe hm hw hdir hT,
        fun file hf hT => FilesController_ok env fs c file exe hf hexe hm hw hdir hT⟩

/-- The text `hello` uploaded next to the stored file `old.txt`. -/
theorem store_append_only_witness :
    (TextsController exEnv exFS exTextContext).fs "/srv/app/uploads/old.txt".toList
        = some (Node.file "old".toList) ∧
    (TextsController exEnv exFS exTextContext).outcome.status = some 200 ∧
    (TextsController exEnv exFS exTextContext).fs =
      exFS.set ("/srv/app/uploads".toList ++ '/' :: (exEnv.newUUID.String ++ ".txt".toList))
        (Node.file "hello".toList) :=
  ⟨by
    obtain ⟨storage, hs, h⟩ := (store_append_only exEnv exFS exTextContext).1 "hello".toList
      ⟨200, [], Body.json "url".toList
        (JSONValue.str "/uploads/79a89ddf-5025-4c75-9716-6405e01b37c2.txt".toList)⟩
      rfl (by decide)
    have hs1 : storage = "/srv/app/uploads".toList := by
      have h0 : GetUploadsDir exEnv = some "/srv/app/uploads".toList := by decide
      rw [h0] at hs
      exact (Option.some.inj hs).symm
    subst hs1
    have hnone : exFS ("/srv/app/uploads".toList ++ '/' ::
        (exEnv.newUUID.String ++ ".txt".toList)) = none := by decide
    exact (h (fun b hb => by rw [hnone] at hb; exact Option.noConfusion hb)).2.2.1 _ _
      (by decide),
   (store_append_only exEnv exFS exTextContext).2.2 "/srv/app/uploads".toList (by decide)
     (by decide) rfl rfl |>.1 "hello".toList rfl (by decide)⟩

/-! ### Routing and downloads -/

theorem afterLead_append (l s : Str) : afterLead l (l ++ s) = some s := by
  induction l with
  | nil => cases s <;> rfl
  | cons a l ih => simp [afterLead, ih]

theorem afterLead_some (l : Str) : ∀ s r : Str, afterLead l s = some r → s = l ++ r := by
  induction l with
  | nil =>
    intro s r h
    cases s <;> simp [afterLead] at h <;> simp [h]
  | cons a l ih =>
    intro s r h
    cases s with
    | nil => simp [afterLead] at h
    | cons b s =>
      simp only [afterLead] at h
      by_cases hab : a = b
      · simp only [hab, if_true] at h
        simp [hab, ih s r h]
      · simp [hab] at h

/-- A `GET` of `/uploads/` followed by one non-empty element is dispatched to
`UploadsController` with that element as the parameter `path`. -/
theorem routeGET_uploads (n : Str) (hn : n ≠ []) (hs : '/' ∉ n) :
    routeGET ("/uploads/".toList ++ n) = Route.uploads [("path".toList, n)] := by
  unfold routeGET
  have h1 : "/uploads/".toList ++ n ≠ "/api/v1/addresses".toList := by
    intro h; simp at h
  have h2 : "/uploads/".toList ++ n ≠ "/api/v1/qrcodes".toList := by
    intro h; simp at h
  rw [if_neg h1, if_neg h2, afterLead_append]
  simp [hn, hs]

/-- A `GET` reaches `UploadsController` only with a parameter `path` that is
the single non-empty element after `/uploads/`, without a slash. -/
theorem routeGET_uploads_inv (urlPath : Str) (params : List (Str × Str))
    (h : routeGET urlPath = Route.uploads params) :
    ∃ n, params = [("path".toList, n)] ∧ urlPath = "/uploads/".toList ++ n ∧
      n ≠ [] ∧ '/' ∉ n := by
  unfold routeGET at h
  by_cases h1 : urlPath = "/api/v1/addresses".toList
  · simp [h1] at h
  by_cases h2 : urlPath = "/api/v1/qrcodes".toList
  · simp [h1, h2] at h
  rw [if_neg h1, if_neg h2] at h
  cases ha : afterLead "/uploads/".toList urlPath with
  | none => rw [ha] at h; simp at h
  | some rest =>
    rw [ha] at h
    simp only at h
    by_cases hr : rest ≠ [] ∧ '/' ∉ rest
    · rw [if_pos hr] at h
      simp only [Route.uploads.injEq] at h
      exact ⟨rest, h.symm, afterLead_some _ _ _ ha, hr.1, hr.2⟩
    · rw [if_neg hr] at h
      simp at h

theorem splitBy_uploads_url (sep : Char → Bool) (h1 : sep '/' = true)
    (h2 : ∀ c ∈ uploadsName, sep c = false) (n : Str) :
    splitBy sep ("/uploads/".toList ++ n) = [] :: uploadsName :: splitBy sep n := by
  have h : "/uploads/".toList ++ n = [] ++ '/' :: (uploadsName ++ '/' :: n) := by
    simp [uploadsName]
  rw [h, splitBy_append sep _ _ '/' h1, splitBy_append sep _ _ '/' h1,
    splitBy_of_no_sep sep uploadsName h2]
  simp [splitBy]

/-- The `..` test of `http.ServeFile` on the path `/uploads/<name>` is the
test on the name. -/
theorem containsDotDot_uploads_url (n : Str) :
    containsDotDot ("/uploads/".toList ++ n) = containsDotDot n := by
  unfold containsDotDot
  rw [splitBy_uploads_url isSlashRune (by decide) (by decide)]
  simp [uploadsName, dotdot]

theorem containsDotDot_plain (n : Str) (hn : Plain n) (hb : '\\' ∉ n) :
    containsDotDot n = false := by
  unfold containsDotDot
  rw [splitBy_of_no_sep isSlashRune n]
  · simp [hn.2.2.2]
  · intro c hc
    have h1 : c ≠ '/' := fun h => hn.2.1 (h ▸ hc)
    have h2 : c ≠ '\\' := fun h => hb (h ▸ hc)
    simp [isSlashRune, h1, h2]

theorem txt_no_backslash (u : UUID) : '\\' ∉ u.String ++ ".txt".toList := by
  intro h
  rcases List.mem_append.1 h with h1 | h1
  · exact (idChars_safe _ (UUID_String_mem u _ h1)).2.2 rfl
  · revert h1; decide

theorem hasSuffix_txt (a b : Str) :
    hasSuffix (a ++ (b ++ ".txt".toList)) "/index.html".toList = false := by
  unfold hasSuffix
  simp [List.isPrefixOf]

/-- What `UploadsController` does for a non-empty name when the request path
passes the two tests of `http.ServeFile` and the name, joined onto the uploads
directory, names a regular file: it serves the bytes of that file. -/
theorem UploadsController_file (env : Env) (fs : FS) (c : Context) (storage data : Str)
    (hs : GetUploadsDir env = some storage) (hp : c.Param "path".toList ≠ [])
    (h1 : containsDotDot c.urlPath = false)
    (h2 : hasSuffix c.urlPath "/index.html".toList = false)
    (hf : fs (Join [storage, c.Param "path".toList]) = some (Node.file data)) :
    UploadsController env fs c =
      ⟨Outcome.response ⟨200, downloadHeader (c.Param "path".toList), Body.file data⟩, fs,
        [Call.executable, Call.openFile (Join [storage, c.Param "path".toList])]⟩ := by
  unfold UploadsController ServeFile osOpen
  simp only [hp, hs, h1, h2, hf, ne_eq, not_false_eq_true, if_true, Bool.false_eq_true,
    if_false]

/-- What `UploadsController` does for a non-empty name when the request path
passes the two tests of `http.ServeFile` and the filesystem has nothing to open
at the name joined onto the uploads directory: the answer of `http.Error` for
the error of the open. -/
theorem UploadsController_missing (env : Env) (fs : FS) (c : Context) (storage : Str)
    (hs : GetUploadsDir env = some storage) (hp : c.Param "path".toList ≠ [])
    (h1 : containsDotDot c.urlPath = false)
    (h2 : hasSuffix c.urlPath "/index.html".toList = false)
    (hf : fs (Join [storage, c.Param "path".toList]) = none) :
    UploadsController env fs c =
      ⟨Outcome.response (httpError (downloadHeader (c.Param "path".toList))
          (toHTTPError (env.openError (Join [storage, c.Param "path".toList]))).1
          (toHTTPError (env.openError (Join [storage, c.Param "path".toList]))).2), fs,
        [Call.executable, Call.openFile (Join [storage, c.Param "path".toList])]⟩ := by
  unfold UploadsController ServeFile osOpen
  simp only [hp, hs, h1, h2, hf, ne_eq, not_false_eq_true, if_true, Bool.false_eq_true,
    if_false]

/-- What `UploadsController` does for a non-empty name when the request path
has a `..` element: 400, and no file is opened. -/
theorem UploadsController_dotdot (env : Env) (fs : FS) (c : Context) (storage : Str)
    (hs : GetUploadsDir env = some storage) (hp : c.Param "path".toList ≠ [])
    (h1 : containsDotDot c.urlPath = true) :
    UploadsController env fs c =
      ⟨Outcome.response (httpError (downloadHeader (c.Param "path".toList))
          "invalid URL path".toList 400), fs, [Call.executable]⟩ := by
  unfold UploadsController ServeFile
  simp only [hp, hs, h1, ne_eq, not_false_eq_true, if_true]

theorem getContext_Param (urlPath n : Str) :
    (getContext urlPath [("path".toList, n)]).Param "path".toList = n := by
  simp [getContext, Context.Param, List.lookup]

/-- C1 (text round trip).  For every filesystem state and every text payload
`raw`: if `TextsController` accepts the body and answers 200 with the url `u`,
then `u` is `/uploads/` followed by one segment, a `GET` of `u` is routed to
`UploadsController` with that final segment as its parameter `path`, the file
the handler resolves (the result of `GetUploadsDir` joined with the segment) is
the file `TextsController` wrote, which holds `raw`, and `UploadsController`,
run on the filesystem the upload left, answers 200 with exactly the bytes of
`raw`, opening that file and no other. -/
theorem text_round_trip (env : Env) (fs : FS) (c : Context) (raw u : Str)
    (header : List (Str × Str))
    (hb : c.bindJSON = Except.ok raw)
    (h : (TextsController env fs c).outcome
      = Outcome.response ⟨200, header, Body.json "url".toList (JSONValue.str u)⟩) :
    ∃ seg storage,
      u = "/uploads/".toList ++ seg ∧
      (splitSlash u).getLast? = some seg ∧
      routeGET u = Route.uploads [("path".toList, seg)] ∧
      GetUploadsDir env = some storage ∧
      Call.writeFile (Join [storage, seg]) raw 0o644 ∈ (TextsController env fs c).calls ∧
      (TextsController env fs c).fs (Join [storage, seg]) = some (Node.file raw) ∧
      UploadsController env (TextsController env fs c).fs (getContext u [("path".toList, seg)])
        = ⟨Outcome.response ⟨200, downloadHeader seg, Body.file raw⟩,
            (TextsController env fs c).fs,
            [Call.executable, Call.openFile (Join [storage, seg])]⟩ := by
  obtain ⟨exe, fs1, hexe, hmk, hw, hr, hcalls⟩ := TextsController_response env fs c raw _ hb h
  have hd := Dir_ne_nil exe
  have hn := plain_txt env.newUUID
  have hu : u = "/uploads/".toList ++ (env.newUUID.String ++ ".txt".toList) := by
    simp only [Response.mk.injEq, Body.json.injEq, JSONValue.str.injEq] at hr
    rw [hr.2.2.2, Join_uploadsName _ hn]
    simp [uploadsName]
  have hs : GetUploadsDir env = some (Join [Dir exe, uploadsName]) := by
    simp [GetUploadsDir, hexe]
  have hT : Join [Dir exe, Join [uploadsName, env.newUUID.String ++ ".txt".toList]]
      = Join [Join [Dir exe, uploadsName], env.newUUID.String ++ ".txt".toList] :=
    Join_fullpath _ _ hd hn
  have hfile : (TextsController env fs c).fs
      (Join [Join [Dir exe, uploadsName], env.newUUID.String ++ ".txt".toList])
      = some (Node.file raw) := by
    rw [Join_uploads_name _ _ hd hn]
    exact (upload_effect _ _ fs fs1 _ (Dir exe) _ raw hd hn hmk hw).1
  refine ⟨env.newUUID.String ++ ".txt".toList, Join [Dir exe, uploadsName], hu, ?_, ?_, hs, ?_,
    hfile, ?_⟩
  · rw [hu]
    unfold splitSlash
    rw [splitBy_uploads_url isSlash (by decide) (by decide),
      splitBy_of_no_sep isSlash _ ((no_slash_iff _).2 hn.2.1)]
    rfl
  · rw [hu]
    exact routeGET_uploads _ hn.1 hn.2.1
  · rw [hcalls, hT]
    simp
  · have hp := getContext_Param u (env.newUUID.String ++ ".txt".toList)
    have h1 : containsDotDot (getContext u [("path".toList,
        env.newUUID.String ++ ".txt".toList)]).urlPath = false := by
      show containsDotDot u = false
      rw [hu, containsDotDot_uploads_url]
      exact containsDotDot_plain _ hn (txt_no_backslash env.newUUID)
    have h2 : hasSuffix (getContext u [("path".toList,
        env.newUUID.String ++ ".txt".toList)]).urlPath "/index.html".toList = false := by
      show hasSuffix u "/index.html".toList = false
      rw [hu]
      exact hasSuffix_txt _ _
    have := UploadsController_file env (TextsController env fs c).fs
      (getContext u [("path".toList, env.newUUID.String ++ ".txt".toList)])
      (Join [Dir exe, uploadsName]) raw hs (by rw [hp]; exact hn.1) h1 h2
      (by rw [hp]; exact hfile)
    rw [hp] at this
    exact this

/-- The text `hello` uploaded and downloaded on the example host. -/
theorem text_round_trip_witness :
    ∃ seg storage,
      exUrl = "/uploads/".toList ++ seg ∧
      (splitSlash exUrl).getLast? = some seg ∧
      routeGET exUrl = Route.uploads [("path".toList, seg)] ∧
      GetUploadsDir exEnv = some storage ∧
      Call.writeFile (Join [storage, seg]) "hello".toList 0o644
        ∈ (TextsController exEnv exFS exTextContext).calls ∧
      (TextsController exEnv exFS exTextContext).fs (Join [storage, seg])
        = some (Node.file "hello".toList) ∧
      UploadsController exEnv (TextsController exEnv exFS exTextContext).fs
          (getContext exUrl [("path".toList, seg)])
        = ⟨Outcome.response ⟨200, downloadHeader seg, Body.file "hello".toList⟩,
            (TextsController exEnv exFS exTextContext).fs,
            [Call.executable, Call.openFile (Join [storage, seg])]⟩ :=
  text_round_trip exEnv exFS exTextContext "hello".toList exUrl [] rfl (by decide)

/-- C2, as stated, fails: a `GET /uploads/..` is routed to `UploadsController`
with the name `..`, and the answer is 400, not 404: the handler joins the name
onto the uploads directory unchecked, and `http.ServeFile` rejects the request
path for its `..` element. -/
theorem dotdot_name_is_400 :
    routeGET "/uploads/..".toList = Route.uploads [("path".toList, dotdot)] ∧
    (UploadsController exEnv exFS
      (getContext "/uploads/..".toList [("path".toList, dotdot)])).outcome.status = some 400 ∧
    (UploadsController exEnv exFS
      (getContext "/uploads/..".toList [("path".toList, dotdot)])).outcome.status ≠ some 404 := by
  decide

/-- C2 (amended: unsafe names are rejected with 400).  The router passes
`UploadsController` only names that are one non-empty element of the request
path, so a name with a slash never reaches it.  For every such name with a
parent-directory reference, that is with `..` as an element between slashes or
backslashes, and for every filesystem state, `UploadsController` (when
`os.Executable` succeeds) answers 400, the `invalid URL path` of `http.Error`,
and its only call is `os.Executable`: no file is opened, whether a file of that
name exists or not, and the filesystem is unchanged. -/
theorem unsafe_name_rejected (env : Env) (fs : FS) :
    (∀ urlPath params, routeGET urlPath = Route.uploads params →
      ∃ n, params = [("path".toList, n)] ∧ urlPath = "/uploads/".toList ++ n ∧
        n ≠ [] ∧ '/' ∉ n) ∧
    (∀ n storage, GetUploadsDir env = some storage → n ≠ [] → containsDotDot n = true →
      UploadsController env fs (getContext ("/uploads/".toList ++ n) [("path".toList, n)])
        = ⟨Outcome.response (httpError (downloadHeader n) "invalid URL path".toList 400),
            fs, [Call.executable]⟩ ∧
      (UploadsController env fs
        (getContext ("/uploads/".toList ++ n) [("path".toList, n)])).outcome.status
        = some 400) := by
  refine ⟨routeGET_uploads_inv, ?_⟩
  intro n storage hs hn hdd
  have hp := getContext_Param ("/uploads/".toList ++ n) n
  have h1 : containsDotDot
      (getContext ("/uploads/".toList ++ n) [("path".toList, n)]).urlPath = true := by
    show containsDotDot ("/uploads/".toList ++ n) = true
    rw [containsDotDot_uploads_url]; exact hdd
  have := UploadsController_dotdot env fs _ storage hs (by rw [hp]; exact hn) h1
  rw [hp] at this
  rw [this]
  exact ⟨rfl, rfl⟩

/-- The name `..\\old.txt`, with a backslash, on the example host. -/
theorem unsafe_name_rejected_witness :
    UploadsController exEnv exFS
        (getContext ("/uploads/".toList ++ "..\\old.txt".toList)
          [("path".toList, "..\\old.txt".toList)])
      = ⟨Outcome.response
          (httpError (downloadHeader "..\\old.txt".toList) "invalid URL path".toList 400),
          exFS, [Call.executable]⟩ ∧
    (UploadsController exEnv exFS
        (getContext ("/uploads/".toList ++ "..\\old.txt".toList)
          [("path".toList, "..\\old.txt".toList)])).outcome.status = some 400 :=
  (unsafe_name_rejected exEnv exFS).2 "..\\old.txt".toList "/srv/app/uploads".toList
    (by decide) (by decide) (by decide)

/-- C9, as stated, fails: the uploads directory of `exFS` has no file
`index.html`, a `GET /uploads/index.html` is routed to `UploadsController`, and
the answer is 301, not 404: `c.File` is `http.ServeFile`, which redirects every
request path that ends in `/index.html` without looking for the file. -/
theorem missing_index_is_301 :
    exFS "/srv/app/uploads/index.html".toList = none ∧
    routeGET "/uploads/index.html".toList
      = Route.uploads [("path".toList, "index.html".toList)] ∧
    (UploadsController exEnv exFS
      (getContext "/uploads/index.html".toList
        [("path".toList, "index.html".toList)])).outcome.status = some 301 ∧
    (UploadsController exEnv exFS
      (getContext "/uploads/index.html".toList
        [("path".toList, "index.html".toList)])).outcome.status ≠ some 404 := by
  decide

/-- C9 (amended: an unknown item is not found).  For every filesystem state:
the empty name is answered 404; and for a non-empty name at which, joined onto
the uploads directory, the filesystem has nothing to open, when `os.Executable`
succeeds and the request path neither has a `..` element nor ends in
`/index.html`, the answer follows the error of the open: 404 when the error is
that nothing exists there, 403 for a permission error, 500 for any other error
(such as a name too long).  A request path with a `..` element is answered
400, and otherwise one that ends in `/index.html` is answered 301, whatever
the name names. -/
theorem unknown_item_not_found (env : Env) (fs : FS) (c : Context) :
    (c.Param "path".toList = [] →
      UploadsController env fs c = ⟨Outcome.response ⟨404, [], Body.empty⟩, fs, []⟩) ∧
    (∀ storage, GetUploadsDir env = some storage → c.Param "path".toList ≠ [] →
      (containsDotDot c.urlPath = false → hasSuffix c.urlPath "/index.html".toList = false →
        fs (Join [storage, c.Param "path".toList]) = none →
        (env.openError (Join [storage, c.Param "path".toList]) = OpenError.notExist →
          (UploadsController env fs c).outcome.status = some 404) ∧
        (env.openError (Join [storage, c.Param "path".toList]) = OpenError.permission →
          (UploadsController env fs c).outcome.status = some 403) ∧
        (env.openError (Join [storage, c.Param "path".toList]) = OpenError.other →
          (UploadsController env fs c).outcome.status = some 500)) ∧
      (containsDotDot c.urlPath = true →
        (UploadsController env fs c).outcome.status = some 400) ∧
      (containsDotDot c.urlPath = false → hasSuffix c.urlPath "/index.html".toList = true →
        (UploadsController env fs c).outcome.status = some 301)) := by
  refine ⟨?_, ?_⟩
  · intro hp
    unfold UploadsController
    simp only [hp, ne_eq, not_true_eq_false, if_false]
  · intro storage hs hp
    refine ⟨?_, ?_, ?_⟩
    · intro h1 h2 hf
      rw [UploadsController_missing env fs c storage hs hp h1 h2 hf]
      refine ⟨?_, ?_, ?_⟩ <;> intro he <;> rw [he] <;> rfl
    · intro h1
      rw [UploadsController_dotdot env fs c storage hs hp h1]
      rfl
    · intro h1 h2
      unfold UploadsController ServeFile
      simp only [hp, hs, h1, h2, ne_eq, not_false_eq_true, if_true, Bool.false_eq_true,
        if_false]
      rfl

/-- The name `does-not-exist.txt` on the example host, and a name of 300 bytes
on a host that reports it as too long. -/
theorem unknown_item_not_found_witness :
    (UploadsController exEnv exFS
      (getContext "/uploads/does-not-exist.txt".toList
        [("path".toList, "does-not-exist.txt".toList)])).outcome.status = some 404 ∧
    (UploadsController exNameMaxEnv exFS
      (getContext ("/uploads/".toList ++ exLongName)
        [("path".toList, exLongName)])).outcome.status = some 500 :=
  ⟨(((unknown_item_not_found exEnv exFS
      (getContext "/uploads/does-not-exist.txt".toList
        [("path".toList, "does-not-exist.txt".toList)])).2
    "/srv/app/uploads".toList (by decide) (by decide)).1
      (by decide) (by decide) (by decide)).1 (by decide),
   (((unknown_item_not_found exNameMaxEnv exFS
      (getContext ("/uploads/".toList ++ exLongName) [("path".toList, exLongName)])).2
    "/srv/app/uploads".toList (by decide) (by decide)).1
      (by decide) (by decide) (by decide)).2.2 (by decide)⟩

/-- C5, as stated, fails: `TextsController` accepts the body with the text
`hello`, `os.MkdirAll` is refused, and the handler ends the process
(`log.Fatal`) instead of answering 200; no file has been written. -/
theorem accepted_body_not_stored :
    exTextContext.bindJSON = Except.ok "hello".toList ∧
    (TextsController exFullDiskEnv exFS exTextContext).outcome = Outcome.exit 1 ∧
    (TextsController exFullDiskEnv exFS exTextContext).outcome.status ≠ some 200 ∧
    (TextsController exFullDiskEnv exFS exTextContext).fs
      "/srv/app/uploads/79a89ddf-5025-4c75-9716-6405e01b37c2.txt".toList = none ∧
    (TextsController exFullDiskEnv exFS exTextContext).calls =
      [Call.executable, Call.uuidNew, Call.mkdirAll "/srv/app/uploads".toList ModePerm] :=
  ⟨rfl, by decide, by decide, by decide, by decide⟩

/-- C3, as stated, fails: when `os.MkdirAll` fails `TextsController` ends the
process instead of answering 5xx, and when QR encoding fails
`QrcodesController` ends the process instead of answering 500. -/
theorem failure_ends_process :
    (TextsController exFullDiskEnv (fun _ => none) exTextContext).outcome = Outcome.exit 1 ∧
    (QrcodesController exQrFailEnv exFS exQrContext).outcome = Outcome.exit 1 := by
  decide

/-- C3 (amended: a handler returns a response or ends the process).  For every
request and every outcome of the environment each handler either returns an
HTTP response or ends the process with `log.Fatal` (exit status 1).
`AddressesController` always answers 200.  `TextsController` answers 400 for a
body that does not bind; for a bound body it ends the process exactly when
`os.Executable`, `os.MkdirAll` or the file write fails and answers 200
otherwise.  `FilesController`, once the file part is found, ends the process
exactly on such a storage failure and answers 200 otherwise.
`UploadsController` answers 404 for an empty name and, for a non-empty name,
ends the process exactly when `os.Executable` fails and returns a response
otherwise.  `QrcodesController` answers 400 for empty content and, for
non-empty content, ends the process exactly when QR encoding fails and
answers 200 otherwise. -/
theorem handler_outcomes (env : Env) (fs : FS) (c : Context) :
    (AddressesController env fs c).outcome.status = some 200 ∧
    (∀ err, c.bindJSON = Except.error err →
      (TextsController env fs c).outcome.status = some 400) ∧
    (∀ raw, c.bindJSON = Except.ok raw →
      ((TextsController env fs c).outcome = Outcome.exit 1 ↔
        storageFails env fs (env.newUUID.String ++ ".txt".toList) raw = true) ∧
      (storageFails env fs (env.newUUID.String ++ ".txt".toList) raw = false →
        (TextsController env fs c).outcome.status = some 200)) ∧
    (∀ file, c.FormFile "raw".toList = Except.ok file →
      ((FilesController env fs c).outcome = Outcome.exit 1 ↔
        storageFails env fs (env.newUUID.String ++ Ext file.Filename) file.content = true) ∧
      (storageFails env fs (env.newUUID.String ++ Ext file.Filename) file.content = false →
        (FilesController env fs c).outcome.status = some 200)) ∧
    (c.Param "path".toList = [] →
      (UploadsController env fs c).outcome.status = some 404) ∧
    (c.Param "path".toList ≠ [] →
      ((UploadsController env fs c).outcome = Outcome.exit 1 ↔ GetUploadsDir env = none) ∧
      (GetUploadsDir env ≠ none → ∃ r, (UploadsController env fs c).outcome = Outcome.response r)) ∧
    (c.Query "content".toList = [] →
      (QrcodesController env fs c).outcome.status = some 400) ∧
    (c.Query "content".toList ≠ [] →
      ((QrcodesController env fs c).outcome = Outcome.exit 1 ↔
        ∃ e, env.qrEncode (c.Query "content".toList) RecoveryLevel.Medium 256 = Except.error e) ∧
      (∀ png, env.qrEncode (c.Query "content".toList) RecoveryLevel.Medium 256 = Except.ok png →
        (QrcodesController env fs c).outcome.status = some 200)) := by
  refine ⟨rfl, ?_, ?_, ?_, ?_, ?_, ?_, ?_⟩
  · intro err hb
    exact (malformed_text_upload_aux env fs c err hb)
  · intro raw hb
    unfold TextsController storageFails
    rw [hb]
    cases hexe : env.executable with
    | error e => simp [logFatal]
    | ok exe =>
      simp only []
      cases hmk : MkdirAll env.mkdirFault fs (Join [Dir exe, uploadsName]) with
      | none => simp [logFatal]
      | some fs1 =>
        simp only []
        cases hw : WriteFile env.writeFault fs1
            (Join [Dir exe, Join [uploadsName, env.newUUID.String ++ ".txt".toList]]) raw with
        | none => simp [logFatal]
        | some fs2 => simp [Outcome.status]
  · intro file hf
    unfold FilesController storageFails SaveUploadedFile
    rw [hf]
    cases hexe : env.executable with
    | error e => simp [logFatal]
    | ok exe =>
      simp only []
      cases hmk : MkdirAll env.mkdirFault fs (Join [Dir exe, uploadsName]) with
      | none => simp [logFatal]
      | some fs1 =>
        simp only []
        cases hw : WriteFile env.writeFault fs1
            (Join [Dir exe, Join [uploadsName, env.newUUID.String ++ Ext file.Filename]])
            file.content with
        | none => simp [logFatal]
        | some fs2 => simp [Outcome.status]
  · intro hp
    unfold UploadsController
    simp only [hp, ne_eq, not_true_eq_false, if_false]
    rfl
  · intro hp
    unfold UploadsController
    simp only [hp, ne_eq, not_false_eq_true, if_true]
    cases hs : GetUploadsDir env with
    | none => simp [logFatal]
    | some storage => simp
  · intro hq
    unfold QrcodesController
    simp only [hq, ne_eq, not_true_eq_false, if_false]
    rfl
  · intro hq
    unfold QrcodesController
    simp only [hq, ne_eq, not_false_eq_true, if_true]
    cases henc : env.qrEncode (c.Query "content".toList) RecoveryLevel.Medium 256 with
    | error e => simp [logFatal]
    | ok png => simp [Outcome.status]

/-- A refused directory creation, a successful upload and a failing QR encoding. -/
theorem handler_outcomes_witness :
    (TextsController exFullDiskEnv exFS exTextContext).outcome = Outcome.exit 1 ∧
    (TextsController exEnv exFS exTextContext).outcome.status = some 200 ∧
    (QrcodesController exQrFailEnv exFS exQrContext).outcome = Outcome.exit 1 :=
  ⟨((handler_outcomes exFullDiskEnv exFS exTextContext).2.2.1 "hello".toList rfl).1.2
      (by decide),
   ((handler_outcomes exEnv exFS exTextContext).2.2.1 "hello".toList rfl).2 (by decide),
   ((handler_outcomes exQrFailEnv exFS exQrContext).2.2.2.2.2.2.2 (by decide)).1.2
      ⟨"content too long to encode".toList, rfl⟩⟩

/-! ### Addresses -/

theorem To4_length (ip ip4 : IP) (h : To4 ip = some ip4) : ip4.length = 4 := by
  unfold To4 at h
  by_cases h1 : ip.length = 4
  · simp only [h1, if_true, Option.some.injEq] at h
    rw [← h]; exact h1
  · simp only [h1, if_false] at h
    split at h
    · rename_i h2
      simp only [Option.some.injEq] at h
      rw [← h, List.length_drop, h2.1]
    · simp at h

theorem ubtoa_chars : ∀ v : Byte, ∀ c ∈ ubtoa v, c ≠ ':' ∧ c ≠ '.' := by
  decide

theorem ubtoa_127 : ∀ v : Byte, ubtoa v = ['1', '2', '7'] → v = 127 := by
  decide

theorem append_cons_cancel (c : Char) : ∀ a1 a2 b1 b2 : Str, c ∉ a1 → c ∉ a2 →
    a1 ++ c :: b1 = a2 ++ c :: b2 → a1 = a2 := by
  intro a1
  induction a1 with
  | nil =>
    intro a2 b1 b2 _ h2 h
    cases a2 with
    | nil => rfl
    | cons x a2 =>
      simp only [List.nil_append, List.cons_append, List.cons.injEq] at h
      exact absurd (by simp [h.1]) h2
  | cons y a1 ih =>
    intro a2 b1 b2 h1 h2 h
    cases a2 with
    | nil =>
      simp only [List.nil_append, List.cons_append, List.cons.injEq] at h
      exact absurd (by simp [h.1]) h1
    | cons x a2 =>
      simp only [List.cons_append, List.cons.injEq] at h
      rw [h.1, ih a2 b1 b2 (fun hm => h1 (List.mem_cons_of_mem _ hm))
        (fun hm => h2 (List.mem_cons_of_mem _ hm)) h.2]

/-- A dotted quad has no colon, and is `127.0.0.1` only if its first byte is
127. -/
theorem dottedQuad_safe (p4 : IP) :
    ':' ∉ dottedQuad p4 ∧ (dottedQuad p4 = "127.0.0.1".toList → p4.getD 0 0 = 127) := by
  refine ⟨?_, ?_⟩
  · unfold dottedQuad
    intro h
    simp only [List.mem_append, List.mem_cons] at h
    have hc := fun v hm => (ubtoa_chars v ':' hm).1 rfl
    rcases h with ((h | h | h) | h | h) | h | h
    · exact hc _ h
    · exact absurd h (by decide)
    · exact hc _ h
    · exact absurd h (by decide)
    · exact hc _ h
    · exact absurd h (by decide)
    · exact hc _ h
  · intro h
    apply ubtoa_127
    unfold dottedQuad at h
    have h1 : "127.0.0.1".toList = ['1', '2', '7'] ++ '.' :: "0.0.1".toList := by decide
    rw [h1, List.append_assoc, List.append_assoc] at h
    exact append_cons_cancel '.' _ _ _ _ (fun hm => (ubtoa_chars _ '.' hm).2 rfl) (by decide) h

/-- The loop of `AddressesController` is a filter followed by a map. -/
theorem addresses_loop (env : Env) (addrs : List Addr) : ∀ init : List Str,
    addrs.foldl (fun (result : List Str) address =>
      match address with
      | Addr.ipNet ip _ =>
        if !IsLoopback ip then
          if (To4 ip).isSome then result ++ [IPString env ip] else result
        else result
      | _ => result) init
    = init ++ (addrs.filter isLanAddress).map (addrString env) := by
  induction addrs with
  | nil => intro init; simp
  | cons a addrs ih =>
    intro init
    rw [List.foldl_cons, ih]
    cases a with
    | ipAddr ip zone => simp [isLanAddress]
    | ipNet ip mask =>
      cases h4 : To4 ip with
      | none => simp [isLanAddress, h4]
      | some ip4 =>
        by_cases hl : ip4.getD 0 0 = 127
        · have hl1 : ip4[0]?.getD 0 = 127 := by simpa using hl
          simp [isLanAddress, IsLoopback, h4, hl1]
        · have hl1 : ¬ ip4[0]?.getD 0 = 127 := by simpa using hl
          simp [isLanAddress, IsLoopback, h4, hl1, addrString]

/-- The string of a qualifying entry is the dotted quad of its 4-byte form,
whose first byte is not 127. -/
theorem addrString_lan (env : Env) (a : Addr) (h : isLanAddress a = true) :
    ∃ p4 : IP, p4.length = 4 ∧ p4.getD 0 0 ≠ 127 ∧ addrString env a = dottedQuad p4 := by
  cases a with
  | ipAddr ip zone => simp [isLanAddress] at h
  | ipNet ip mask =>
    unfold isLanAddress at h
    cases h4 : To4 ip with
    | none => simp [h4] at h
    | some ip4 =>
      simp only [h4, bne_iff_ne, ne_eq] at h
      have hlen := To4_length ip ip4 h4
      exact ⟨ip4, hlen, h, by simp [addrString, IPString, h4, hlen]⟩

/-- C7 (address filter).  `AddressesController` always answers 200 with a
sequence of addresses, and makes one call, `net.InterfaceAddrs`.  For every
list of interface addresses the host reports, the addresses returned are
exactly the string forms of the entries that are IP networks with an IPv4
address that is not a loopback address, in the reported order.  Every address
returned is the dotted decimal form of four bytes of which the first is not
127; it is never `127.0.0.1` and has no colon, so it is never an IPv6 address.
When no entry qualifies, or the host reports an error, the answer is still
200, with the empty sequence. -/
theorem address_filter (env : Env) (fs : FS) (c : Context) :
    (AddressesController env fs c).outcome
      = Outcome.response ⟨200, [], Body.json "addresses".toList
          (JSONValue.strs (addressesOf (AddressesController env fs c)))⟩ ∧
    (AddressesController env fs c).calls = [Call.interfaceAddrs] ∧
    (∀ addrs, env.interfaceAddrs = Except.ok addrs →
      addressesOf (AddressesController env fs c)
        = (addrs.filter isLanAddress).map (addrString env)) ∧
    (∀ s ∈ addressesOf (AddressesController env fs c),
      (∃ p4 : IP, p4.length = 4 ∧ p4.getD 0 0 ≠ 127 ∧ s = dottedQuad p4) ∧
      s ≠ "127.0.0.1".toList ∧ ':' ∉ s) ∧
    (∀ addrs, env.interfaceAddrs = Except.ok addrs → (∀ a ∈ addrs, isLanAddress a = false) →
      addressesOf (AddressesController env fs c) = []) ∧
    (∀ e, env.interfaceAddrs = Except.error e →
      addressesOf (AddressesController env fs c) = []) := by
  have hloop : addressesOf (AddressesController env fs c)
      = ((match env.interfaceAddrs with
          | Except.ok l => l
          | Except.error _ => []).filter isLanAddress).map (addrString env) := by
    unfold addressesOf AddressesController
    exact addresses_loop env _ []
  have hok : ∀ addrs, env.interfaceAddrs = Except.ok addrs →
      addressesOf (AddressesController env fs c)
        = (addrs.filter isLanAddress).map (addrString env) := by
    intro addrs h
    rw [hloop, h]
  have herr : ∀ e, env.interfaceAddrs = Except.error e →
      addressesOf (AddressesController env fs c) = [] := by
    intro e h
    rw [hloop, h]
    rfl
  refine ⟨rfl, rfl, hok, ?_, ?_, herr⟩
  · intro s hs
    have hmem : ∃ a, isLanAddress a = true ∧ s = addrString env a := by
      cases hi : env.interfaceAddrs with
      | error e => rw [herr e hi] at hs; simp at hs
      | ok addrs =>
        rw [hok addrs hi] at hs
        obtain ⟨a, ha, hsa⟩ := List.mem_map.1 hs
        exact ⟨a, (List.mem_filter.1 ha).2, hsa.symm⟩
    obtain ⟨a, ha, hsa⟩ := hmem
    obtain ⟨p4, hlen, h127, hstr⟩ := addrString_lan env a ha
    have hsp : s = dottedQuad p4 := by rw [hsa, hstr]
    refine ⟨⟨p4, hlen, h127, hsp⟩, ?_, ?_⟩
    · intro h
      rw [hsp] at h
      exact h127 ((dottedQuad_safe p4).2 h)
    · rw [hsp]; exact (dottedQuad_safe p4).1
  · intro addrs hi hall
    rw [hok addrs hi]
    have : addrs.filter isLanAddress = [] := by
      rw [List.filter_eq_nil_iff]
      intro a ha
      simp [hall a ha]
    rw [this]
    rfl

/-- The example host reports `127.0.0.1` and `192.168.1.5`; a host that reports nothing. -/
theorem address_filter_witness :
    addressesOf (AddressesController exEnv exFS exTextContext) = ["192.168.1.5".toList] ∧
    addressesOf (AddressesController exFullDiskEnv exFS exTextContext) = [] :=
  ⟨by
    have h := (address_filter exEnv exFS exTextContext).2.2.1 _ rfl
    rw [h]
    decide,
   (address_filter exFullDiskEnv exFS exTextContext).2.2.2.2.1 [] rfl
     (fun a ha => absurd ha (List.not_mem_nil a))⟩

end GoDesktop
